import Mathlib

set_option maxHeartbeats 1600000
set_option maxRecDepth 100000

/-
Verification of the version-synchronization toolkit of the
pagopa/selfcare-monorepo-poc repository.

Manifest texts are modelled as `List Char`.  Every regular expression used
by the JavaScript sources is a specialized pattern built from string
literals, greedy whitespace stars `\s*`, lazy dot stars `[\s\S]*?`, greedy
positive character classes such as `[^<]+`, and single-character classes
such as the quote class.  `matchPieces` below is a backtracking matcher for
exactly these constructs with the JavaScript preference order (greedy =
longest alternative first, lazy = shortest alternative first,
left-to-right), and `searchPieces` is the leftmost-match search performed
by `String.prototype.match`, `RegExp.prototype.test` and
`String.prototype.replace` on a regexp without the `g` flag.
-/

/-- JS whitespace class `\s` (ASCII part; the Unicode spaces never occur in
the manifests this repository manipulates and are omitted). -/
def isWs (c : Char) : Bool :=
  c == ' ' || c == '\t' || c == '\n' || c == '\r' || c == Char.ofNat 11 || c == Char.ofNat 12

/-- One syntactic piece of a JavaScript regular expression as used by the
sources: a literal, `\s*`, `[\s\S]*?`, a greedy `[class]+` (with
`clsStar` as the internal `[class]*` continuation used for backtracking),
or a single `[class]` character. -/
inductive Piece where
  | lit (cs : List Char)
  | ws
  | dotLazy
  | cls (p : Char → Bool)
  | clsStar (p : Char → Bool)
  | one (p : Char → Bool)

/-- Strip a literal from the front of a string, returning the remainder. -/
def chomp : List Char → List Char → Option (List Char)
  | [], s => some s
  | _ :: _, [] => none
  | c :: cs, d :: t => if c = d then chomp cs t else none

/-- Prepend an empty segment (a zero-length quantifier match). -/
def pushNil (x : List (List Char) × List Char) : List (List Char) × List Char :=
  ([] :: x.1, x.2)

/-- Prepend a consumed character to the first segment of a deeper match. -/
def consFirst (c : Char) (x : List (List Char) × List Char) :
    Option (List (List Char) × List Char) :=
  match x with
  | (seg :: segs, rest) => some ((c :: seg) :: segs, rest)
  | ([], _) => none

/-- Fueled backtracking matcher.  `goM fuel ps s` tries to match the piece
sequence `ps` at the start of `s`, returning the list of consumed segments
(one per piece, in order) and the remaining suffix of the first successful
alternative in the JavaScript exploration order.  The fuel only serves to
make the recursion structural; `matchPieces` always supplies enough. -/
def goM : Nat → List Piece → List Char → Option (List (List Char) × List Char)
  | 0, _, _ => none
  | _ + 1, [], s => some ([], s)
  | f + 1, Piece.lit cs :: ps, s =>
    match chomp cs s with
    | some r => (goM f ps r).map (fun x => (cs :: x.1, x.2))
    | none => none
  | f + 1, Piece.ws :: ps, s =>
    match s with
    | c :: t =>
      match isWs c with
      | true =>
        match goM f (Piece.ws :: ps) t with
        | some x => consFirst c x
        | none => (goM f ps (c :: t)).map pushNil
      | false => (goM f ps (c :: t)).map pushNil
    | [] => (goM f ps []).map pushNil
  | f + 1, Piece.dotLazy :: ps, s =>
    match goM f ps s with
    | some x => some (pushNil x)
    | none =>
      match s with
      | c :: t =>
        match goM f (Piece.dotLazy :: ps) t with
        | some x => consFirst c x
        | none => none
      | [] => none
  | f + 1, Piece.cls p :: ps, s =>
    match s with
    | c :: t =>
      match p c with
      | true =>
        match goM f (Piece.clsStar p :: ps) t with
        | some x => consFirst c x
        | none => none
      | false => none
    | [] => none
  | f + 1, Piece.clsStar p :: ps, s =>
    match s with
    | c :: t =>
      match p c with
      | true =>
        match goM f (Piece.clsStar p :: ps) t with
        | some x => consFirst c x
        | none => (goM f ps (c :: t)).map pushNil
      | false => (goM f ps (c :: t)).map pushNil
    | [] => (goM f ps []).map pushNil
  | f + 1, Piece.one p :: ps, s =>
    match s with
    | c :: t =>
      match p c with
      | true => (goM f ps t).map (fun x => ([c] :: x.1, x.2))
      | false => none
    | [] => none

/-- Match a piece sequence at the start of a string (JS sticky semantics). -/
def matchPieces (ps : List Piece) (s : List Char) :
    Option (List (List Char) × List Char) :=
  goM (s.length + ps.length + 1) ps s

/-- Leftmost-match search: the result is the skipped text before the first
position where `ps` matches, the matched segments and the remaining
suffix. -/
def searchPieces (ps : List Piece) : List Char →
    Option (List Char × List (List Char) × List Char)
  | [] =>
    match matchPieces ps [] with
    | some (segs, rest) => some ([], segs, rest)
    | none => none
  | c :: t =>
    match matchPieces ps (c :: t) with
    | some (segs, rest) => some ([], segs, rest)
    | none => (searchPieces ps t).map (fun x => (c :: x.1, x.2.1, x.2.2))

/-- What a successful match guarantees about the segment consumed by each
kind of piece. -/
def PieceFits : Piece → List Char → Prop
  | Piece.lit cs, seg => seg = cs
  | Piece.ws, seg => ∀ c ∈ seg, isWs c = true
  | Piece.dotLazy, _ => True
  | Piece.cls p, seg => seg ≠ [] ∧ ∀ c ∈ seg, p c = true
  | Piece.clsStar p, seg => ∀ c ∈ seg, p c = true
  | Piece.one p, seg => ∃ c, seg = [c] ∧ p c = true

/-
Source-derived definitions for
src/tools/nx-maven-version/src/release-version-actions.js.
`escapeRegExp` makes every interpolated coordinate a regex literal, so the
coordinate holes of the patterns below are `Piece.lit`.
-/

def gOpen : List Char := "<groupId>".data

def gClose : List Char := "</groupId>".data

def aOpen : List Char := "<artifactId>".data

def aClose : List Char := "</artifactId>".data

def vOpen : List Char := "<version>".data

def vClose : List Char := "</version>".data

def depOpen : List Char := "<dependency>".data

def depClose : List Char := "</dependency>".data

/-- The character class `[^<]`. -/
def notLt (c : Char) : Bool := c != '<'

/-- Artifact tail of the project-version pattern:
`<artifactId>\s*A\s*<\/artifactId>\s*<version>([^<]+)<\/version>`. -/
def tailPieces (a : List Char) : List Piece :=
  [Piece.lit aOpen, Piece.ws, Piece.lit a, Piece.ws, Piece.lit aClose,
   Piece.ws, Piece.lit vOpen, Piece.cls notLt, Piece.lit vClose]

/-- The pattern built by `readProjectVersionFromPom` and
`updateProjectVersionInPom`:
`<groupId>\s*G\s*<\/groupId>[\s\S]*?<artifactId>\s*A\s*<\/artifactId>\s*<version>([^<]+)<\/version>`.
The capture (group 2 of the update regex, group 1 of the read regex) is the
segment at index 13. -/
def projPieces (g a : List Char) : List Piece :=
  [Piece.lit gOpen, Piece.ws, Piece.lit g, Piece.ws, Piece.lit gClose, Piece.dotLazy] ++
    tailPieces a

/-- Model of `readProjectVersionFromPom(pomXml, coords)`: leftmost match of
the coordinate pattern, returning the captured version text (null when the
pattern is absent). -/
def readProjectVersionFromPom (pom g a : List Char) : Option (List Char) :=
  match searchPieces (projPieces g a) pom with
  | some (_, segs, _) => segs[13]?
  | none => none

/-- Model of the ECMAScript `GetSubstitution` abstract operation
(ECMA-262, String.prototype.replace with a string replacement), as a
two-mode scanner: in dollar mode the scanner sits right after a dollar.
A dollar before a dollar yields a literal dollar; before an ampersand,
the matched text; before a backquote, the text before the match; before a
quote, the text after the match; before digits, the referenced capture,
preferring a two-digit reference and falling back to one digit when the
two-digit number exceeds the group count, and keeping the dollar sequence
literally when no group of that number exists; any other dollar is
literal. -/
def getSubScan (matched before after : List Char) (caps : List (List Char)) :
    Bool → List Char → List Char
  | dollar, [] => if dollar then ['$'] else []
  | true, c :: t =>
    if c = '$' then '$' :: getSubScan matched before after caps false t
    else if c = '&' then matched ++ getSubScan matched before after caps false t
    else if c = Char.ofNat 96 then before ++ getSubScan matched before after caps false t
    else if c = Char.ofNat 39 then after ++ getSubScan matched before after caps false t
    else if c.isDigit then
      match t with
      | c2 :: t2 =>
        if c2.isDigit then
          if 1 ≤ (c.toNat - 48) * 10 + (c2.toNat - 48) ∧
              (c.toNat - 48) * 10 + (c2.toNat - 48) ≤ caps.length then
            caps.getD ((c.toNat - 48) * 10 + (c2.toNat - 48) - 1) [] ++
              getSubScan matched before after caps false t2
          else if 1 ≤ c.toNat - 48 ∧ c.toNat - 48 ≤ caps.length then
            caps.getD (c.toNat - 48 - 1) [] ++ c2 ::
              getSubScan matched before after caps false t2
          else '$' :: c :: c2 :: getSubScan matched before after caps false t2
        else
          if 1 ≤ c.toNat - 48 ∧ c.toNat - 48 ≤ caps.length then
            caps.getD (c.toNat - 48 - 1) [] ++
              (if c2 = '$' then getSubScan matched before after caps true t2
               else c2 :: getSubScan matched before after caps false t2)
          else
            '$' :: c ::
              (if c2 = '$' then getSubScan matched before after caps true t2
               else c2 :: getSubScan matched before after caps false t2)
      | [] =>
        if 1 ≤ c.toNat - 48 ∧ c.toNat - 48 ≤ caps.length then
          caps.getD (c.toNat - 48 - 1) []
        else ['$', c]
    else '$' :: c :: getSubScan matched before after caps false t
  | false, c :: t =>
    if c = '$' then getSubScan matched before after caps true t
    else c :: getSubScan matched before after caps false t

/-- `GetSubstitution` on a whole replacement template (normal mode). -/
def getSubstitution (matched before after : List Char) (caps : List (List Char))
    (tmpl : List Char) : List Char :=
  getSubScan matched before after caps false tmpl

/-- Model of `updateProjectVersionInPom(pomXml, coords, newVersion)`: null
when the pattern is absent, otherwise the JS string replacement whose
template is the three characters dollar-one, then `newVersion`, then
dollar-three, processed by `getSubstitution` over the leftmost match
(group 1 is the text up to and including `<version>`, group 2 the
captured version text, group 3 the closing tag).  Dollar sequences inside
`newVersion` are therefore substituted, not copied literally. -/
def updateProjectVersionInPom (pom g a nv : List Char) : Option (List Char) :=
  match searchPieces (projPieces g a) pom with
  | some (pre, segs, rest) =>
    some (pre ++
      getSubstitution segs.flatten pre rest
        [(segs.take 13).flatten, segs.getD 13 [], segs.getD 14 []]
        (("$1".data) ++ nv ++ ("$3".data)) ++ rest)
  | none => none

/-- The dependency-block pattern of `updateDependencyVersionInPom` (and of
`readDependencyVersionFromPom`):
`<dependency>\s*[\s\S]*?<groupId>\s*G\s*<\/groupId>\s*[\s\S]*?<artifactId>\s*A\s*<\/artifactId>[\s\S]*?<\/dependency>`. -/
def depPieces (g a : List Char) : List Piece :=
  [Piece.lit depOpen, Piece.ws, Piece.dotLazy,
   Piece.lit gOpen, Piece.ws, Piece.lit g, Piece.ws, Piece.lit gClose,
   Piece.ws, Piece.dotLazy,
   Piece.lit aOpen, Piece.ws, Piece.lit a, Piece.ws, Piece.lit aClose,
   Piece.dotLazy, Piece.lit depClose]

/-- The version-tag pattern matched inside a dependency block.  The test
regex `<version>\s*[^<]+\s*<\/version>` and the replacement regex
`(<version>\s*)([^<]+)(\s*<\/version>)` have the same matches; the
replacement groups are group 1 = segments 0-1, group 2 = segment 2,
group 3 = segments 3-4. -/
def verTagPieces : List Piece :=
  [Piece.lit vOpen, Piece.ws, Piece.cls notLt, Piece.ws, Piece.lit vClose]

/-- Model of `String.prototype.replace` with a plain-string pattern:
replace the first occurrence of `pat` by `repl` (dollar escapes in the
replacement are not modelled; no claim below produces them). -/
def replaceFirst : List Char → List Char → List Char → List Char
  | [], pat, repl => if pat.isPrefixOf [] then repl else []
  | c :: t, pat, repl =>
    if pat.isPrefixOf (c :: t) then repl ++ (c :: t).drop pat.length
    else c :: replaceFirst t pat repl

/-- Model of `updateDependencyVersionInPom(pomXml, dependencyCoords,
newVersion)`: locate the leftmost dependency-block match (null when
absent); when the matched block text has no version tag, return the
manifest unchanged; otherwise rewrite the first version tag of the block
and splice the rewritten block back over the first occurrence of the
original block text. -/
def updateDependencyVersionInPom (pom g a nv : List Char) : Option (List Char) :=
  match searchPieces (depPieces g a) pom with
  | none => none
  | some (_, segs, _) =>
    let depBlock := segs.flatten
    match searchPieces verTagPieces depBlock with
    | none => some pom
    | some (p2, vsegs, r2) =>
      let updatedBlock :=
        p2 ++ (vsegs.take 2).flatten ++ nv ++ (vsegs.drop 3).flatten ++ r2
      some (replaceFirst pom depBlock updatedBlock)

/-- Split a list at every occurrence of a separator (model of
`String.prototype.split` with a one-character separator). -/
def splitOnChar (sep : Char) : List Char → List (List Char)
  | [] => [[]]
  | c :: t =>
    if c = sep then [] :: splitOnChar sep t
    else
      match splitOnChar sep t with
      | [] => [[c]]
      | seg :: rest => (c :: seg) :: rest

/-- Model of `parseMavenCoords(projectName)`: null on an empty name or a
name without a colon; otherwise `split(':', 2)` (the first two split
segments) destructured into groupId and artifactId, with null again when
either is empty. -/
def parseMavenCoords (projectName : List Char) : Option (List Char × List Char) :=
  if projectName.isEmpty || !(projectName.contains ':') then none
  else
    match (splitOnChar ':' projectName).take 2 with
    | [g, a] => if g.isEmpty || a.isEmpty then none else some (g, a)
    | _ => none

/-- Errors thrown by `MavenVersionActions.updateProjectVersion`. -/
inductive MavenUpdateError where
  | invalidCoords
  | unreadableManifest
  | patternNotMatched
deriving DecidableEq, Repr

/-- The manifest loop of `MavenVersionActions.updateProjectVersion`: read
each manifest (throw when unreadable), rewrite it through
`updateProjectVersionInPom` (throw when the write-time scan finds no
match), write it back.  The first component collects the writes performed
before any throw (the JS tree keeps them). -/
def updateManifestsLoop (g a nv : List Char) :
    List (List Char × Option (List Char)) →
      List (List Char × List Char) × Option MavenUpdateError
  | [] => ([], none)
  | (_, none) :: _ => ([], some MavenUpdateError.unreadableManifest)
  | (path, some pom) :: rest =>
    match updateProjectVersionInPom pom g a nv with
    | none => ([], some MavenUpdateError.patternNotMatched)
    | some out =>
      let r := updateManifestsLoop g a nv rest
      ((path, out) :: r.1, r.2)

/-- Model of `MavenVersionActions.updateProjectVersion(tree, newVersion)`:
coordinates are parsed from the project name (throw when invalid), then
every manifest of `manifestsToUpdate` is rewritten, throwing as soon as one
is unreadable or its write-time scan fails. -/
def mavenUpdateProjectVersion (projectName nv : List Char)
    (manifests : List (List Char × Option (List Char))) :
    List (List Char × List Char) × Option MavenUpdateError :=
  match parseMavenCoords projectName with
  | none => ([], some MavenUpdateError.invalidCoords)
  | some (g, a) => updateManifestsLoop g a nv manifests

/-
Source-derived definitions for scripts/sync-pom-version.js.
-/

/-- The character class `[\d\.\-a-zA-Z]` of sync-pom-version.js. -/
def isSyncVerChar (c : Char) : Bool := c.isDigit || c == '.' || c == '-' || c.isAlpha

/-- The regex `(<version>)([\d\.\-a-zA-Z]+)(<\/version>)` of
`updatePomVersion` (first `<version>` tag in the whole file). -/
def syncVerPieces : List Piece :=
  [Piece.lit vOpen, Piece.cls isSyncVerChar, Piece.lit vClose]

/-- Outcome of `updatePomVersion` in sync-pom-version.js.  None of the
outcomes raises: the missing-file and missing-tag cases only print a
warning and return normally. -/
inductive SyncPomOutcome where
  | updated (oldVersion : List Char)
  | noPomWarning
  | versionTagWarning
deriving DecidableEq, Repr

/-- Model of `updatePomVersion(projectRoot, newVersion)`: rewrite the first
`<version>` tag of the file; when the file or the tag is missing, log a
warning and leave the file untouched. -/
def updatePomVersion (pom : Option (List Char)) (newVersion : List Char) :
    Option (List Char) × SyncPomOutcome :=
  match pom with
  | none => (none, SyncPomOutcome.noPomWarning)
  | some content =>
    match searchPieces syncVerPieces content with
    | some (pre, segs, rest) =>
      (some (pre ++ vOpen ++ newVersion ++ vClose ++ rest),
        SyncPomOutcome.updated (segs[1]?.getD []))
    | none => (some content, SyncPomOutcome.versionTagWarning)

/-- Model of a sync-pom-version.js run for a resolved project root (the
argv / package.json prologue is out of scope here): the script calls
`updatePomVersion` and then falls off the end, so the process exits 0 in
all three outcomes. -/
def syncPomScript (pom : Option (List Char)) (pkgVersion : List Char) :
    Option (List Char) × SyncPomOutcome × Nat :=
  let r := updatePomVersion pom pkgVersion
  (r.1, r.2, 0)

/-
Source-derived definitions for version-plan parsing (identical regexes in
`parseVersionPlans` of generator.js and Step 2 of the release script in
scripts/sync-pom-version.js, lines 88-107 of the concatenated file).
-/

/-- Front-matter regex `^---\s*\n([\s\S]*?)\n---` (anchored at the start of
the file; the capture is segment 3). -/
def fmPieces : List Piece :=
  [Piece.lit ("---".data), Piece.ws, Piece.lit ("\n".data), Piece.dotLazy,
   Piece.lit ("\n---".data)]

/-- Extract the YAML front matter of a plan file. -/
def frontMatter (content : List Char) : Option (List Char) :=
  match matchPieces fmPieces content with
  | some (segs, _) => segs[3]?
  | none => none

/-- The single-quote character (written numerically). -/
def quoteChar : Char := Char.ofNat 39

def isQuote (c : Char) : Bool := c == quoteChar || c == '"'

def notQuote (c : Char) : Bool := !(isQuote c)

/-- JS `\w`. -/
def isWordChar (c : Char) : Bool := c.isAlphanum || c == '_'

/-- The plan-line regex `['"]([^'"]+)['"]\s*:\s*(\w+)` (captures are
segments 1 and 6). -/
def linePieces : List Piece :=
  [Piece.one isQuote, Piece.cls notQuote, Piece.one isQuote,
   Piece.ws, Piece.lit (":".data), Piece.ws, Piece.cls isWordChar]

/-- Parse one line of the front matter into (projectName, specifier). -/
def parsePlanLine (line : List Char) : Option (List Char × List Char) :=
  match searchPieces linePieces line with
  | some (_, segs, _) => some (segs[1]?.getD [], segs[6]?.getD [])
  | none => none

/-- Parse one version-plan file: the front matter is extracted (a file
without one contributes nothing) and the line regex is applied to each of
its lines in order. -/
def parsePlanFile (content : List Char) : List (List Char × List Char) :=
  match frontMatter content with
  | none => []
  | some yaml => (splitOnChar '\n' yaml).filterMap parsePlanLine

/-- JS `Map.prototype.set` (also the semantics of assigning to an object
key): overwrite in place when the key is present, append otherwise. -/
def mapSet {α : Type} (m : List (List Char × α)) (k : List Char) (v : α) :
    List (List Char × α) :=
  match m with
  | [] => [(k, v)]
  | (k', v') :: rest => if k' = k then (k', v) :: rest else (k', v') :: mapSet rest k v

/-- JS `Map.prototype.get`. -/
def mapGet {α : Type} (m : List (List Char × α)) (k : List Char) : Option α :=
  match m with
  | [] => none
  | (k', v) :: rest => if k' = k then some v else mapGet rest k

/-- The merge loop of the release script (and of `parseVersionPlans`):
plan files are processed in listing order and every parsed line is set
into the shared map, so a later assignment to a project overwrites an
earlier one. -/
def projectsToRelease (files : List (List Char)) : List (List Char × List Char) :=
  files.foldl
    (fun m content => (parsePlanFile content).foldl (fun m' e => mapSet m' e.1 e.2) m) []

/-- The `.md` filter applied to the version-plans directory listing. -/
def endsWithMd (name : List Char) : Bool := (".md".data).isSuffixOf name

/-
Modelled from the spec: the external node-semver library used by
generator.js (`semver.valid`, `semver.inc`).  The spec describes versions
as `MAJOR.MINOR.PATCH[-PRERELEASE][+BUILD]` and the keyword increments as
"standard semantic-versioning increment rules: major/minor/patch bump the
respective ordinal and reset lower ordinals, zeroing/removing prerelease".
Build metadata never occurs in this repository's manifests and is omitted;
the pre* keyword family is outside every claim and yields none.
-/

/-- Modelled from the spec: a parsed semantic version. -/
structure SemVer where
  major : Nat
  minor : Nat
  patch : Nat
  pre : List (List Char)
deriving DecidableEq, Repr

/-- Modelled from the spec: `semver.inc` for the keywords major / minor /
patch.  An ordinal is bumped unless the version is a prerelease of exactly
that level (releasing a pending prerelease), lower ordinals are reset and
the prerelease tag is cleared. -/
def semverInc (v : SemVer) (keyword : List Char) : Option SemVer :=
  if keyword = "major".data then
    some { major := if v.minor ≠ 0 ∨ v.patch ≠ 0 ∨ v.pre = [] then v.major + 1 else v.major,
           minor := 0, patch := 0, pre := [] }
  else if keyword = "minor".data then
    some { major := v.major,
           minor := if v.patch ≠ 0 ∨ v.pre = [] then v.minor + 1 else v.minor,
           patch := 0, pre := [] }
  else if keyword = "patch".data then
    some { major := v.major, minor := v.minor,
           patch := if v.pre = [] then v.patch + 1 else v.patch, pre := [] }
  else none

/-- Digits of a number token. -/
def digitsToNat (cs : List Char) : Option Nat :=
  if cs ≠ [] ∧ cs.all Char.isDigit then
    some (cs.foldl (fun n c => n * 10 + (c.toNat - 48)) 0)
  else none

/-- Modelled from the spec: version-string parsing as performed by
`semver.valid` (null) / the node-semver constructor. -/
def semverParse (s : List Char) : Option SemVer :=
  let core := s.takeWhile (fun c => c != '-')
  let rest := s.drop core.length
  match (splitOnChar '.' core).map digitsToNat with
  | [some mj, some mi, some pa] =>
    match rest with
    | [] => some ⟨mj, mi, pa, []⟩
    | _ :: preStr =>
      let ids := splitOnChar '.' preStr
      if ids.all (fun id => id ≠ []) then some ⟨mj, mi, pa, ids⟩ else none
  | _ => none

def natToDigits (n : Nat) : List Char := (toString n).data

/-- Modelled from the spec: rendering of a semantic version. -/
def semverRender (v : SemVer) : List Char :=
  natToDigits v.major ++ ('.' :: natToDigits v.minor) ++ ('.' :: natToDigits v.patch) ++
    (match v.pre with
     | [] => []
     | ids => '-' :: List.intercalate (".".data) ids)

/-- Modelled from the spec: `semver.valid(x)` is truthy. -/
def semverValidStr (s : List Char) : Bool := (semverParse s).isSome

/-- Modelled from the spec: `semver.inc` on version strings. -/
def semverIncStr (s keyword : List Char) : Option (List Char) :=
  (semverParse s).bind (fun v => (semverInc v keyword).map semverRender)

/-
Source-derived definitions for
src/tools/nx-maven-version/src/version-resolver.js and
src/tools/nx-maven-version/src/generators/version/generator.js.
-/

/-- A project manifest on disk, as discriminated by `isMavenProject`: a
pom.xml (full text) or a package.json whose parsed `version` field is
given (`JSON.parse` is the runtime's and is not re-modelled). -/
inductive Manifest where
  | pom (content : List Char)
  | pkg (version : Option (List Char))
deriving DecidableEq, Repr

/-- The regex of `getVersionFromPom`:
`<artifactId>[^<]+<\/artifactId>\s*<version>([^<]+)<\/version>` (capture =
segment 5). -/
def resolverReadPieces : List Piece :=
  [Piece.lit aOpen, Piece.cls notLt, Piece.lit aClose, Piece.ws,
   Piece.lit vOpen, Piece.cls notLt, Piece.lit vClose]

/-- Model of `getVersion(projectRoot)`: pom.xml when present (throwing when
its regex captures nothing), else the package.json version field (throwing
when the file or the field is missing). -/
def getVersion : Option Manifest → Except (List Char) (List Char)
  | some (Manifest.pom content) =>
    match searchPieces resolverReadPieces content with
    | some (_, segs, _) => Except.ok (segs[5]?.getD [])
    | none => Except.error ("Could not find version in pom.xml".data)
  | some (Manifest.pkg (some v)) => Except.ok v
  | some (Manifest.pkg none) => Except.error ("No version field in package.json".data)
  | none => Except.error ("package.json not found".data)

/-- The replacement regex of `setVersionInPom`:
`(<artifactId>[^<]+<\/artifactId>\s*<version>)[^<]+(<\/version>)`.  When it
does not match, `String.replace` leaves the text unchanged and the
unchanged text is still written back. -/
def setVersionInPomText (content nv : List Char) : List Char :=
  match searchPieces resolverReadPieces content with
  | some (pre, segs, rest) => pre ++ (segs.take 5).flatten ++ nv ++ vClose ++ rest
  | none => content

/-- Model of `setVersion(projectRoot, newVersion, tree)`. -/
def setVersion : Option Manifest → List Char → Except (List Char) Manifest
  | some (Manifest.pom content), nv =>
    Except.ok (Manifest.pom (setVersionInPomText content nv))
  | some (Manifest.pkg _), nv => Except.ok (Manifest.pkg (some nv))
  | none, _ => Except.error ("package.json not found".data)

/-- One project as handed to the generator by Nx. -/
structure ProjectInfo where
  name : List Char
  root : List Char
deriving DecidableEq, Repr

/-- One entry of the generator's `results` object. -/
structure GenEntry where
  currentVersion : List Char
  newVersion : List Char
  projectRoot : List Char
deriving DecidableEq, Repr

/-- Errors thrown by the version generator. -/
inductive GenError where
  | noProjects
  | badResolver
  | readError (msg : List Char)
  | incFailed
  | writeError (msg : List Char)
deriving DecidableEq, Repr

/-- Generator options.  `versionPlans = some contents` corresponds to
`specifierSource === 'version-plans'` with those plan files on disk;
`diskResolver` is `currentVersionResolver === 'disk'`. -/
structure GenOptions where
  specifier : List Char
  preid : List Char
  diskResolver : Bool
  versionPlans : Option (List (List Char))

/-- The workspace file system, keyed by project root. -/
def FsModel := List (List Char × Manifest)

def fsGet (fs : FsModel) (root : List Char) : Option Manifest := mapGet fs root

def fsSet (fs : FsModel) (root : List Char) (m : Manifest) : FsModel := mapSet fs root m

/-- The per-project specifier resolution of the generator loop: from the
version-plan map under `specifierSource === 'version-plans'`, else the
global specifier option. -/
def genSpecifier (opts : GenOptions) (specMap : List (List Char × List Char))
    (p : ProjectInfo) : List Char :=
  match opts.versionPlans with
  | some _ => (mapGet specMap p.name).getD []
  | none => opts.specifier

/-- The new-version computation of the generator loop: an explicit valid
version is taken as is, a nonempty keyword goes through `semver.inc`, and
no specifier keeps the current version. -/
def genNewVersion (spec current : List Char) : Option (List Char) :=
  if semverValidStr spec then some spec
  else if !spec.isEmpty then semverIncStr current spec
  else some current

/-- One iteration of the generator's project loop: resolve the per-project
specifier, read the current version (rethrowing), compute the new version,
throw when an increment was requested but produced nothing, and write only
when a specifier was given and the version actually changed.  The Bool
reports whether `setVersion` was called. -/
def generatorStep (opts : GenOptions) (specMap : List (List Char × List Char))
    (fs : FsModel) (p : ProjectInfo) :
    Except GenError (FsModel × (List Char × GenEntry) × Bool) :=
  let projectSpecifier := genSpecifier opts specMap p
  if !opts.diskResolver then Except.error GenError.badResolver
  else
    match getVersion (fsGet fs p.root) with
    | Except.error msg => Except.error (GenError.readError msg)
    | Except.ok currentVersion =>
      match genNewVersion projectSpecifier currentVersion with
      | none => Except.error GenError.incFailed
      | some newVersion =>
        if !projectSpecifier.isEmpty ∧ newVersion ≠ currentVersion then
          match setVersion (fsGet fs p.root) newVersion with
          | Except.error msg => Except.error (GenError.writeError msg)
          | Except.ok m' =>
            Except.ok (fsSet fs p.root m',
              (p.name,
               ⟨currentVersion, if newVersion.isEmpty then currentVersion else newVersion,
                p.root⟩),
              true)
        else
          Except.ok (fs,
            (p.name,
             ⟨currentVersion, if newVersion.isEmpty then currentVersion else newVersion,
              p.root⟩),
            false)

/-- The generator's project loop, accumulating the mutated tree, the
`results` object and the roots written through `setVersion`. -/
def generatorLoop (opts : GenOptions) (specMap : List (List Char × List Char)) :
    FsModel → List (List Char × GenEntry) → List (List Char) → List ProjectInfo →
      Except GenError (FsModel × List (List Char × GenEntry) × List (List Char))
  | fs, results, writes, [] => Except.ok (fs, results, writes)
  | fs, results, writes, p :: rest =>
    match generatorStep opts specMap fs p with
    | Except.error e => Except.error e
    | Except.ok (fs', entry, wrote) =>
      generatorLoop opts specMap fs' (mapSet results entry.1 entry.2)
        (writes ++ if wrote then [p.root] else []) rest

/-- Model of `versionGenerator(tree, options)` (generator.js): validate the
project list, build the specifier map from the version plans when so
configured, run the project loop — and then end without a `return`
statement, so the JavaScript function's return value is undefined,
modelled as the final `none` component (the internally built `results`
object is the middle component of the loop state). -/
def versionGenerator (opts : GenOptions) (fs : FsModel) (projects : List ProjectInfo) :
    Except GenError ((FsModel × List (List Char × GenEntry) × List (List Char)) ×
      Option (List (List Char × GenEntry))) :=
  if projects.isEmpty then Except.error GenError.noProjects
  else
    let specMap :=
      match opts.versionPlans with
      | some contents => projectsToRelease contents
      | none => []
    (generatorLoop opts specMap fs [] [] projects).map (fun st => (st, none))

/-
Source-derived definitions for the custom release script (second file of
src/scripts/sync-pom-version.js).
-/

/-- Externally visible steps of the release script, in execution order. -/
inductive RelEv where
  | checkedPlans
  | appliedVersions
  | readVersions
  | generatedChangelogs
  | deletedPlans
  | refreshedLockfile
deriving DecidableEq, Repr

/-- Environment of one release-script run: whether the version-plans
directory exists, its listing (file name and content), the outcomes of the
two external commands the script aborts on, and the dry-run flag.
Per-project version reads and changelog generation are wrapped in
try/catch by the script (those steps complete with warnings), so they have
no outcome here. -/
structure RelEnv where
  plansDirExists : Bool
  files : List (List Char × List Char)
  applyOk : Bool
  npmOk : Bool
  dryRun : Bool

/-- Result of a release-script run: process exit code, the plan files
still on disk, and the trace of the steps that really executed
(`deletedPlans` and `refreshedLockfile` only appear when the deletions /
the npm call actually ran, i.e. never during a dry run). -/
structure RelResult where
  exitCode : Nat
  remainingPlans : List (List Char × List Char)
  trace : List RelEv
deriving DecidableEq, Repr

/-- Model of the release script: check the plans directory and the `.md`
plan files (exit 1, plans intact), parse and merge the plans (exit 1 when
empty, plans intact), apply the versions via `nx release version` (exit 1
on failure, plans intact), read back versions and generate changelogs
(errors absorbed), delete the plan files, and finally regenerate the
lockfile (exit 1 on failure — but the plans are already gone, which is
after the deletion point the claims care about). -/
def runReleaseScript (env : RelEnv) : RelResult :=
  let planFiles := env.files.filter (fun f => endsWithMd f.1)
  if !env.plansDirExists then ⟨1, planFiles, []⟩
  else if planFiles.isEmpty then ⟨1, planFiles, []⟩
  else
    let plans := projectsToRelease (planFiles.map Prod.snd)
    if plans.isEmpty then ⟨1, planFiles, [RelEv.checkedPlans]⟩
    else if !env.dryRun && !env.applyOk then ⟨1, planFiles, [RelEv.checkedPlans]⟩
    else
      let trace1 := [RelEv.checkedPlans, RelEv.appliedVersions, RelEv.readVersions,
        RelEv.generatedChangelogs]
      if env.dryRun then ⟨0, planFiles, trace1⟩
      else if env.npmOk then
        ⟨0, [], trace1 ++ [RelEv.deletedPlans, RelEv.refreshedLockfile]⟩
      else ⟨1, [], trace1 ++ [RelEv.deletedPlans, RelEv.refreshedLockfile]⟩

/-- The last specifier assigned to project `p` by a list of parsed plan
entries, later entries winning (the overwrite order of `Map.set`). -/
def lastSpec (entries : List (List Char × List Char)) (p : List Char) :
    Option (List Char) :=
  entries.foldl (fun acc e => if e.1 = p then some e.2 else acc) none

/-- The last specifier a single plan file assigns to project `p`. -/
def fileSpec (f p : List Char) : Option (List Char) :=
  lastSpec (parsePlanFile f) p

/-- Coordinate well-formedness assumed by the round-trip theorems:
nonempty, free of whitespace and of angle brackets (every real Maven
groupId / artifactId satisfies this). -/
def goodTok (x : List Char) : Prop :=
  x ≠ [] ∧ ∀ c ∈ x, isWs c = false ∧ c ≠ '<' ∧ c ≠ '>'

/-- A string ending in the tag-closing character.  Every prefix of the
manifest cut right after a complete XML tag has this shape, and the tag
literals of the patterns contain that character only in final position, so
no literal chomp can straddle such a boundary. -/
def endsGt (z : List Char) : Prop := ∃ y, z = y ++ ['>']

/-- What the matcher guarantees about a version capture: nonempty and free
of the tag-opening character (the class is `[^<]+`).  Both the original
captured text and any well-formed replacement satisfy this, and the
matcher's behaviour around the capture is uniform in it. -/
def CapText (x : List Char) : Prop := x ≠ [] ∧ ∀ c ∈ x, c ≠ '<'

/-- Deterministic parse of the groupId group `<groupId>\s*G\s*<\/groupId>`
(a characterization of the matcher proved below for well-formed
coordinates): the two whitespace runs and the remaining suffix. -/
def grpParseD (g s : List Char) : Option (List Char × List Char × List Char) :=
  (chomp gOpen s).bind fun s1 =>
    (chomp g (s1.dropWhile isWs)).bind fun s3 =>
      (chomp gClose (s3.dropWhile isWs)).map fun s5 =>
        (s1.takeWhile isWs, s3.takeWhile isWs, s5)

/-- Result of a deterministic artifact-tail parse: the three whitespace
runs, the version capture and the suffix after `<\/version>`. -/
structure ArtTailRes where
  w3 : List Char
  w4 : List Char
  w5 : List Char
  cap : List Char
  rest : List Char
deriving DecidableEq, Repr

/-- Deterministic parse of the artifact tail
`<artifactId>\s*A\s*<\/artifactId>\s*<version>([^<]+)<\/version>`. -/
def artTailD (a s : List Char) : Option ArtTailRes :=
  (chomp aOpen s).bind fun s1 =>
    (chomp a (s1.dropWhile isWs)).bind fun s3 =>
      (chomp aClose (s3.dropWhile isWs)).bind fun s5 =>
        (chomp vOpen (s5.dropWhile isWs)).bind fun s7 =>
          if (s7.takeWhile notLt).isEmpty then none
          else
            (chomp vClose (s7.dropWhile notLt)).map fun rest =>
              ⟨s1.takeWhile isWs, s3.takeWhile isWs, s5.takeWhile isWs,
               s7.takeWhile notLt, rest⟩

/-- The lazy scan of `[\s\S]*?` before the artifact tail: first position
where the tail parses. -/
def scanTailD (a : List Char) : List Char → Option (List Char × ArtTailRes)
  | [] => (artTailD a []).map fun t => ([], t)
  | c :: s =>
    match artTailD a (c :: s) with
    | some t => some ([], t)
    | none => (scanTailD a s).map fun x => (c :: x.1, x.2)

/-- Result of a deterministic whole-pattern parse. -/
structure ProjRes where
  w1 : List Char
  w2 : List Char
  skipped : List Char
  w3 : List Char
  w4 : List Char
  w5 : List Char
  cap : List Char
  rest : List Char
deriving DecidableEq, Repr

/-- Deterministic parse of the whole project-coordinate pattern at the
start of the string. -/
def projMatchD (g a s : List Char) : Option ProjRes :=
  (grpParseD g s).bind fun x =>
    (scanTailD a x.2.2).map fun y =>
      ⟨x.1, x.2.1, y.1, y.2.w3, y.2.w4, y.2.w5, y.2.cap, y.2.rest⟩

/-- Leftmost deterministic search for the whole pattern. -/
def searchProjD (g a : List Char) : List Char → Option (List Char × ProjRes)
  | [] => (projMatchD g a []).map fun r => ([], r)
  | c :: s =>
    match projMatchD g a (c :: s) with
    | some r => some ([], r)
    | none => (searchProjD g a s).map fun x => (c :: x.1, x.2)

/-- The segment list corresponding to a deterministic parse result. -/
def projSegsOf (g a : List Char) (r : ProjRes) : List (List Char) :=
  [gOpen, r.w1, g, r.w2, gClose, r.skipped, aOpen, r.w3, a, r.w4, aClose, r.w5, vOpen,
   r.cap, vClose]

/-- The matched text up to and including `<version>` (group 1 of the
update regex). -/
def projHead (g a : List Char) (r : ProjRes) : List Char :=
  gOpen ++ r.w1 ++ g ++ r.w2 ++ gClose ++ r.skipped ++ aOpen ++ r.w3 ++ a ++ r.w4 ++
    aClose ++ r.w5 ++ vOpen

theorem chomp_length {cs s r : List Char} (h : chomp cs s = some r) :
    r.length + cs.length = s.length := by
  induction cs generalizing s with
  | nil => simp [chomp] at h; simp [h]
  | cons c cs ih =>
    cases s with
    | nil => simp [chomp] at h
    | cons d t =>
      by_cases hc : c = d
      · simp only [chomp, hc, if_pos rfl] at h
        have := ih h
        simp [List.length_cons]
        omega
      · simp [chomp, hc] at h

theorem chomp_append (cs t : List Char) : chomp cs (cs ++ t) = some t := by
  induction cs with
  | nil => simp [chomp]
  | cons c cs ih => simp [chomp, ih]

/-- The fuel is irrelevant as soon as it dominates the obvious measure. -/
theorem goM_fuel :
    ∀ (f g : Nat) (ps : List Piece) (s : List Char),
      s.length + ps.length < f → s.length + ps.length < g →
      goM f ps s = goM g ps s := by
  intro f
  induction f with
  | zero => intro g ps s hf; omega
  | succ f ih =>
    intro g ps s hf hg
    cases g with
    | zero => omega
    | succ g =>
      cases ps with
      | nil => simp [goM]
      | cons p ps =>
        cases p with
        | lit cs =>
          cases hch : chomp cs s with
          | none => simp [goM, hch]
          | some r =>
            have hlen := chomp_length hch
            simp only [goM, hch]
            rw [ih g ps r (by simp at hf ⊢; omega) (by simp at hg ⊢; omega)]
        | ws =>
          cases s with
          | nil =>
            simp only [goM]
            rw [ih g ps [] (by simp at hf ⊢; omega) (by simp at hg ⊢; omega)]
          | cons c t =>
            cases hw : isWs c with
            | true =>
              simp only [goM, hw]
              rw [ih g (Piece.ws :: ps) t (by simp at hf ⊢; omega) (by simp at hg ⊢; omega),
                ih g ps (c :: t) (by simp at hf ⊢; omega) (by simp at hg ⊢; omega)]
            | false =>
              simp only [goM, hw]
              rw [ih g ps (c :: t) (by simp at hf ⊢; omega) (by simp at hg ⊢; omega)]
        | dotLazy =>
          cases s with
          | nil =>
            simp only [goM]
            rw [ih g ps [] (by simp at hf ⊢; omega) (by simp at hg ⊢; omega)]
          | cons c t =>
            simp only [goM]
            rw [ih g ps (c :: t) (by simp at hf ⊢; omega) (by simp at hg ⊢; omega),
              ih g (Piece.dotLazy :: ps) t (by simp at hf ⊢; omega) (by simp at hg ⊢; omega)]
        | cls p =>
          cases s with
          | nil => simp [goM]
          | cons c t =>
            cases hp : p c with
            | true =>
              simp only [goM, hp]
              rw [ih g (Piece.clsStar p :: ps) t (by simp at hf ⊢; omega)
                (by simp at hg ⊢; omega)]
            | false => simp [goM, hp]
        | clsStar p =>
          cases s with
          | nil =>
            simp only [goM]
            rw [ih g ps [] (by simp at hf ⊢; omega) (by simp at hg ⊢; omega)]
          | cons c t =>
            cases hp : p c with
            | true =>
              simp only [goM, hp]
              rw [ih g (Piece.clsStar p :: ps) t (by simp at hf ⊢; omega)
                (by simp at hg ⊢; omega),
                ih g ps (c :: t) (by simp at hf ⊢; omega) (by simp at hg ⊢; omega)]
            | false =>
              simp only [goM, hp]
              rw [ih g ps (c :: t) (by simp at hf ⊢; omega) (by simp at hg ⊢; omega)]
        | one p =>
          cases s with
          | nil => simp [goM]
          | cons c t =>
            cases hp : p c with
            | true =>
              simp only [goM, hp]
              rw [ih g ps t (by simp at hf ⊢; omega) (by simp at hg ⊢; omega)]
            | false => simp [goM, hp]


theorem chomp_sound {cs s r : List Char} (h : chomp cs s = some r) : s = cs ++ r := by
  induction cs generalizing s with
  | nil => simp [chomp] at h; simp [h]
  | cons c cs ih =>
    cases s with
    | nil => simp [chomp] at h
    | cons d t =>
      by_cases hc : c = d
      · simp only [chomp, hc, if_pos rfl] at h
        simp [hc, ih h]
      · simp [chomp, hc] at h

theorem consFirst_eq_some {c : Char} {x : List (List Char) × List Char}
    {segs : List (List Char)} {rest : List Char}
    (h : consFirst c x = some (segs, rest)) :
    ∃ seg segs', x = (seg :: segs', rest) ∧ segs = (c :: seg) :: segs' := by
  obtain ⟨xs, xr⟩ := x
  cases xs with
  | nil => simp [consFirst] at h
  | cons seg segs' =>
    refine ⟨seg, segs', ?_, ?_⟩ <;> simp [consFirst] at h <;> simp [h.1.symm, h.2]

/-- Unfolding: the empty pattern matches at once. -/
theorem matchPieces_nilp (s : List Char) : matchPieces [] s = some ([], s) := rfl

/-- Unfolding equation for a literal piece. -/
theorem matchPieces_lit (cs : List Char) (ps : List Piece) (s : List Char) :
    matchPieces (Piece.lit cs :: ps) s =
      match chomp cs s with
      | some r => (matchPieces ps r).map (fun x => (cs :: x.1, x.2))
      | none => none := by
  have key : matchPieces (Piece.lit cs :: ps) s =
      (match chomp cs s with
       | some r =>
         (goM (s.length + (Piece.lit cs :: ps).length) ps r).map (fun x => (cs :: x.1, x.2))
       | none => none) := rfl
  rw [key]
  cases hch : chomp cs s with
  | none => rfl
  | some r =>
    have hlen := chomp_length hch
    dsimp only
    rw [goM_fuel (s.length + (Piece.lit cs :: ps).length) (r.length + ps.length + 1) ps r
      (by simp only [List.length_cons]; omega) (by omega)]
    rfl

/-- Unfolding equation for `\s*` on a nonempty string. -/
theorem matchPieces_ws_cons (ps : List Piece) (c : Char) (t : List Char) :
    matchPieces (Piece.ws :: ps) (c :: t) =
      match isWs c with
      | true =>
        match matchPieces (Piece.ws :: ps) t with
        | some x => consFirst c x
        | none => (matchPieces ps (c :: t)).map pushNil
      | false => (matchPieces ps (c :: t)).map pushNil := by
  have key : matchPieces (Piece.ws :: ps) (c :: t) =
      (match isWs c with
       | true =>
         match goM ((c :: t).length + (Piece.ws :: ps).length) (Piece.ws :: ps) t with
         | some x => consFirst c x
         | none =>
           (goM ((c :: t).length + (Piece.ws :: ps).length) ps (c :: t)).map pushNil
       | false =>
         (goM ((c :: t).length + (Piece.ws :: ps).length) ps (c :: t)).map pushNil) := rfl
  rw [key,
    goM_fuel ((c :: t).length + (Piece.ws :: ps).length) (t.length + (Piece.ws :: ps).length + 1)
      (Piece.ws :: ps) t (by simp only [List.length_cons]; omega)
      (by simp only [List.length_cons]; omega),
    goM_fuel ((c :: t).length + (Piece.ws :: ps).length) ((c :: t).length + ps.length + 1)
      ps (c :: t) (by simp only [List.length_cons]; omega)
      (by simp only [List.length_cons]; omega)]
  rfl

/-- Unfolding equation for `\s*` on the empty string. -/
theorem matchPieces_ws_nil (ps : List Piece) :
    matchPieces (Piece.ws :: ps) [] = (matchPieces ps []).map pushNil := by
  have key : matchPieces (Piece.ws :: ps) [] =
      (goM (List.length ([] : List Char) + (Piece.ws :: ps).length) ps []).map pushNil := rfl
  rw [key,
    goM_fuel (List.length ([] : List Char) + (Piece.ws :: ps).length)
      (List.length ([] : List Char) + ps.length + 1) ps []
      (by simp only [List.length_cons, List.length_nil]; omega)
      (by simp only [List.length_nil]; omega)]
  rfl

/-- Unfolding equation for the lazy dot star. -/
theorem matchPieces_dotLazy (ps : List Piece) (s : List Char) :
    matchPieces (Piece.dotLazy :: ps) s =
      match matchPieces ps s with
      | some x => some (pushNil x)
      | none =>
        match s with
        | c :: t =>
          match matchPieces (Piece.dotLazy :: ps) t with
          | some x => consFirst c x
          | none => none
        | [] => none := by
  cases s with
  | nil =>
    have key : matchPieces (Piece.dotLazy :: ps) [] =
        (match goM (List.length ([] : List Char) + (Piece.dotLazy :: ps).length) ps [] with
         | some x => some (pushNil x)
         | none => none) := rfl
    rw [key,
      goM_fuel (List.length ([] : List Char) + (Piece.dotLazy :: ps).length)
        (List.length ([] : List Char) + ps.length + 1) ps []
        (by simp only [List.length_cons, List.length_nil]; omega)
        (by simp only [List.length_nil]; omega)]
    rfl
  | cons c t =>
    have key : matchPieces (Piece.dotLazy :: ps) (c :: t) =
        (match goM ((c :: t).length + (Piece.dotLazy :: ps).length) ps (c :: t) with
         | some x => some (pushNil x)
         | none =>
           match goM ((c :: t).length + (Piece.dotLazy :: ps).length) (Piece.dotLazy :: ps) t with
           | some x => consFirst c x
           | none => none) := rfl
    rw [key,
      goM_fuel ((c :: t).length + (Piece.dotLazy :: ps).length) ((c :: t).length + ps.length + 1)
        ps (c :: t) (by simp only [List.length_cons]; omega)
        (by simp only [List.length_cons]; omega),
      goM_fuel ((c :: t).length + (Piece.dotLazy :: ps).length)
        (t.length + (Piece.dotLazy :: ps).length + 1) (Piece.dotLazy :: ps) t
        (by simp only [List.length_cons]; omega) (by simp only [List.length_cons]; omega)]
    rfl

/-- Unfolding equation for a greedy `[class]+` piece. -/
theorem matchPieces_cls (p : Char → Bool) (ps : List Piece) (s : List Char) :
    matchPieces (Piece.cls p :: ps) s =
      match s with
      | c :: t =>
        match p c with
        | true =>
          match matchPieces (Piece.clsStar p :: ps) t with
          | some x => consFirst c x
          | none => none
        | false => none
      | [] => none := by
  cases s with
  | nil => rfl
  | cons c t =>
    have key : matchPieces (Piece.cls p :: ps) (c :: t) =
        (match p c with
         | true =>
           match goM ((c :: t).length + (Piece.cls p :: ps).length) (Piece.clsStar p :: ps) t with
           | some x => consFirst c x
           | none => none
         | false => none) := rfl
    rw [key,
      goM_fuel ((c :: t).length + (Piece.cls p :: ps).length)
        (t.length + (Piece.clsStar p :: ps).length + 1) (Piece.clsStar p :: ps) t
        (by simp only [List.length_cons]; omega) (by simp only [List.length_cons]; omega)]
    rfl

/-- Unfolding equation for a greedy `[class]*` piece on a nonempty string. -/
theorem matchPieces_clsStar_cons (p : Char → Bool) (ps : List Piece) (c : Char)
    (t : List Char) :
    matchPieces (Piece.clsStar p :: ps) (c :: t) =
      match p c with
      | true =>
        match matchPieces (Piece.clsStar p :: ps) t with
        | some x => consFirst c x
        | none => (matchPieces ps (c :: t)).map pushNil
      | false => (matchPieces ps (c :: t)).map pushNil := by
  have key : matchPieces (Piece.clsStar p :: ps) (c :: t) =
      (match p c with
       | true =>
         match goM ((c :: t).length + (Piece.clsStar p :: ps).length) (Piece.clsStar p :: ps) t with
         | some x => consFirst c x
         | none =>
           (goM ((c :: t).length + (Piece.clsStar p :: ps).length) ps (c :: t)).map pushNil
       | false =>
         (goM ((c :: t).length + (Piece.clsStar p :: ps).length) ps (c :: t)).map pushNil) := rfl
  rw [key,
    goM_fuel ((c :: t).length + (Piece.clsStar p :: ps).length)
      (t.length + (Piece.clsStar p :: ps).length + 1) (Piece.clsStar p :: ps) t
      (by simp only [List.length_cons]; omega) (by simp only [List.length_cons]; omega),
    goM_fuel ((c :: t).length + (Piece.clsStar p :: ps).length)
      ((c :: t).length + ps.length + 1) ps (c :: t)
      (by simp only [List.length_cons]; omega) (by simp only [List.length_cons]; omega)]
  rfl

/-- Unfolding equation for a greedy `[class]*` piece on the empty string. -/
theorem matchPieces_clsStar_nil (p : Char → Bool) (ps : List Piece) :
    matchPieces (Piece.clsStar p :: ps) [] = (matchPieces ps []).map pushNil := by
  have key : matchPieces (Piece.clsStar p :: ps) [] =
      (goM (List.length ([] : List Char) + (Piece.clsStar p :: ps).length) ps []).map
        pushNil := rfl
  rw [key,
    goM_fuel (List.length ([] : List Char) + (Piece.clsStar p :: ps).length)
      (List.length ([] : List Char) + ps.length + 1) ps []
      (by simp only [List.length_cons, List.length_nil]; omega)
      (by simp only [List.length_nil]; omega)]
  rfl

/-- Unfolding equation for a single-character class piece. -/
theorem matchPieces_one (p : Char → Bool) (ps : List Piece) (s : List Char) :
    matchPieces (Piece.one p :: ps) s =
      match s with
      | c :: t =>
        match p c with
        | true => (matchPieces ps t).map (fun x => ([c] :: x.1, x.2))
        | false => none
      | [] => none := by
  cases s with
  | nil => rfl
  | cons c t =>
    have key : matchPieces (Piece.one p :: ps) (c :: t) =
        (match p c with
         | true =>
           (goM ((c :: t).length + (Piece.one p :: ps).length) ps t).map
             (fun x => ([c] :: x.1, x.2))
         | false => none) := rfl
    rw [key,
      goM_fuel ((c :: t).length + (Piece.one p :: ps).length) (t.length + ps.length + 1) ps t
        (by simp only [List.length_cons]; omega) (by omega)]
    rfl

/-- Soundness of the matcher: a successful match decomposes the input into
the segments followed by the rest, one fitting segment per piece. -/
theorem goM_sound :
    ∀ (f : Nat) (ps : List Piece) (s : List Char) (segs : List (List Char))
      (rest : List Char), goM f ps s = some (segs, rest) →
      s = segs.flatten ++ rest ∧ List.Forall₂ PieceFits ps segs := by
  intro f
  induction f with
  | zero => intro ps s segs rest h; simp [goM] at h
  | succ f ih =>
    intro ps s segs rest h
    cases ps with
    | nil =>
      simp only [goM, Option.some.injEq, Prod.mk.injEq] at h
      obtain ⟨h1, h2⟩ := h
      subst h1; subst h2
      exact ⟨rfl, List.Forall₂.nil⟩
    | cons p ps =>
      cases p with
      | lit cs =>
        simp only [goM] at h
        cases hch : chomp cs s with
        | none => rw [hch] at h; simp at h
        | some r =>
          rw [hch] at h
          rw [Option.map_eq_some'] at h
          obtain ⟨⟨segs', rest'⟩, hx, hmap⟩ := h
          obtain ⟨h1, h2⟩ := ih ps r segs' rest' hx
          simp only [Prod.mk.injEq] at hmap
          obtain ⟨hsegs, hrest⟩ := hmap
          subst hsegs; subst hrest
          constructor
          · rw [chomp_sound hch, h1]; simp
          · exact List.Forall₂.cons rfl h2
      | ws =>
        cases s with
        | nil =>
          simp only [goM] at h
          rw [Option.map_eq_some'] at h
          obtain ⟨⟨segs', rest'⟩, hx, hmap⟩ := h
          obtain ⟨h1, h2⟩ := ih ps [] segs' rest' hx
          simp only [pushNil, Prod.mk.injEq] at hmap
          obtain ⟨hsegs, hrest⟩ := hmap
          subst hsegs; subst hrest
          constructor
          · simpa using h1
          · exact List.Forall₂.cons (by intro c hc; simp at hc) h2
        | cons c t =>
          simp only [goM] at h
          cases hw : isWs c with
          | true =>
            rw [hw] at h
            cases hg : goM f (Piece.ws :: ps) t with
            | some x =>
              rw [hg] at h
              obtain ⟨seg, segs', hx, hsegs⟩ := consFirst_eq_some h
              subst hsegs
              rw [hx] at hg
              obtain ⟨h1, h2⟩ := ih _ t (seg :: segs') rest hg
              rw [List.forall₂_cons] at h2
              constructor
              · rw [h1]; simp
              · refine List.Forall₂.cons ?_ h2.2
                intro d hd
                rcases List.mem_cons.mp hd with hdc | hds
                · subst hdc; exact hw
                · exact h2.1 d hds
            | none =>
              rw [hg] at h
              rw [Option.map_eq_some'] at h
              obtain ⟨⟨segs', rest'⟩, hx, hmap⟩ := h
              obtain ⟨h1, h2⟩ := ih ps (c :: t) segs' rest' hx
              simp only [pushNil, Prod.mk.injEq] at hmap
              obtain ⟨hsegs, hrest⟩ := hmap
              subst hsegs; subst hrest
              constructor
              · simpa using h1
              · exact List.Forall₂.cons (by intro d hd; simp at hd) h2
          | false =>
            rw [hw] at h
            rw [Option.map_eq_some'] at h
            obtain ⟨⟨segs', rest'⟩, hx, hmap⟩ := h
            obtain ⟨h1, h2⟩ := ih ps (c :: t) segs' rest' hx
            simp only [pushNil, Prod.mk.injEq] at hmap
            obtain ⟨hsegs, hrest⟩ := hmap
            subst hsegs; subst hrest
            constructor
            · simpa using h1
            · exact List.Forall₂.cons (by intro d hd; simp at hd) h2
      | dotLazy =>
        simp only [goM] at h
        cases hg : goM f ps s with
        | some x =>
          rw [hg] at h
          obtain ⟨segs', rest'⟩ := x
          obtain ⟨h1, h2⟩ := ih ps s segs' rest' hg
          simp only [pushNil, Option.some.injEq, Prod.mk.injEq] at h
          obtain ⟨hsegs, hrest⟩ := h
          subst hsegs; subst hrest
          constructor
          · simpa using h1
          · exact List.Forall₂.cons trivial h2
        | none =>
          rw [hg] at h
          cases s with
          | nil => simp at h
          | cons c t =>
            dsimp only at h
            cases hg2 : goM f (Piece.dotLazy :: ps) t with
            | none => rw [hg2] at h; simp at h
            | some x =>
              rw [hg2] at h
              obtain ⟨seg, segs', hx, hsegs⟩ := consFirst_eq_some h
              subst hsegs
              rw [hx] at hg2
              obtain ⟨h1, h2⟩ := ih _ t (seg :: segs') rest hg2
              rw [List.forall₂_cons] at h2
              constructor
              · rw [h1]; simp
              · exact List.Forall₂.cons trivial h2.2
      | cls p =>
        cases s with
        | nil => simp [goM] at h
        | cons c t =>
          simp only [goM] at h
          cases hp : p c with
          | false => rw [hp] at h; simp at h
          | true =>
            rw [hp] at h
            cases hg : goM f (Piece.clsStar p :: ps) t with
            | none => rw [hg] at h; simp at h
            | some x =>
              rw [hg] at h
              obtain ⟨seg, segs', hx, hsegs⟩ := consFirst_eq_some h
              subst hsegs
              rw [hx] at hg
              obtain ⟨h1, h2⟩ := ih _ t (seg :: segs') rest hg
              rw [List.forall₂_cons] at h2
              constructor
              · rw [h1]; simp
              · refine List.Forall₂.cons ⟨by simp, ?_⟩ h2.2
                intro d hd
                rcases List.mem_cons.mp hd with hdc | hds
                · subst hdc; exact hp
                · exact h2.1 d hds
      | clsStar p =>
        cases s with
        | nil =>
          simp only [goM] at h
          rw [Option.map_eq_some'] at h
          obtain ⟨⟨segs', rest'⟩, hx, hmap⟩ := h
          obtain ⟨h1, h2⟩ := ih ps [] segs' rest' hx
          simp only [pushNil, Prod.mk.injEq] at hmap
          obtain ⟨hsegs, hrest⟩ := hmap
          subst hsegs; subst hrest
          constructor
          · simpa using h1
          · exact List.Forall₂.cons (by intro d hd; simp at hd) h2
        | cons c t =>
          simp only [goM] at h
          cases hp : p c with
          | true =>
            rw [hp] at h
            cases hg : goM f (Piece.clsStar p :: ps) t with
            | some x =>
              rw [hg] at h
              obtain ⟨seg, segs', hx, hsegs⟩ := consFirst_eq_some h
              subst hsegs
              rw [hx] at hg
              obtain ⟨h1, h2⟩ := ih _ t (seg :: segs') rest hg
              rw [List.forall₂_cons] at h2
              constructor
              · rw [h1]; simp
              · refine List.Forall₂.cons ?_ h2.2
                intro d hd
                rcases List.mem_cons.mp hd with hdc | hds
                · subst hdc; exact hp
                · exact h2.1 d hds
            | none =>
              rw [hg] at h
              rw [Option.map_eq_some'] at h
              obtain ⟨⟨segs', rest'⟩, hx, hmap⟩ := h
              obtain ⟨h1, h2⟩ := ih ps (c :: t) segs' rest' hx
              simp only [pushNil, Prod.mk.injEq] at hmap
              obtain ⟨hsegs, hrest⟩ := hmap
              subst hsegs; subst hrest
              constructor
              · simpa using h1
              · exact List.Forall₂.cons (by intro d hd; simp at hd) h2
          | false =>
            rw [hp] at h
            rw [Option.map_eq_some'] at h
            obtain ⟨⟨segs', rest'⟩, hx, hmap⟩ := h
            obtain ⟨h1, h2⟩ := ih ps (c :: t) segs' rest' hx
            simp only [pushNil, Prod.mk.injEq] at hmap
            obtain ⟨hsegs, hrest⟩ := hmap
            subst hsegs; subst hrest
            constructor
            · simpa using h1
            · exact List.Forall₂.cons (by intro d hd; simp at hd) h2
      | one p =>
        cases s with
        | nil => simp [goM] at h
        | cons c t =>
          simp only [goM] at h
          cases hp : p c with
          | false => rw [hp] at h; simp at h
          | true =>
            rw [hp] at h
            rw [Option.map_eq_some'] at h
            obtain ⟨⟨segs', rest'⟩, hx, hmap⟩ := h
            obtain ⟨h1, h2⟩ := ih ps t segs' rest' hx
            simp only [Prod.mk.injEq] at hmap
            obtain ⟨hsegs, hrest⟩ := hmap
            subst hsegs; subst hrest
            constructor
            · rw [h1]; simp
            · exact List.Forall₂.cons ⟨c, rfl, hp⟩ h2

/-- Soundness at the `matchPieces` level. -/
theorem matchPieces_sound {ps : List Piece} {s : List Char}
    {segs : List (List Char)} {rest : List Char}
    (h : matchPieces ps s = some (segs, rest)) :
    s = segs.flatten ++ rest ∧ List.Forall₂ PieceFits ps segs :=
  goM_sound _ ps s segs rest h

/-- Soundness of the leftmost search: decomposition, segment facts, a match
at the found position and failure at all earlier positions. -/
theorem searchPieces_sound {ps : List Piece} :
    ∀ {s pre : List Char} {segs : List (List Char)} {rest : List Char},
      searchPieces ps s = some (pre, segs, rest) →
      s = pre ++ (segs.flatten ++ rest) ∧ List.Forall₂ PieceFits ps segs ∧
      matchPieces ps (segs.flatten ++ rest) = some (segs, rest) ∧
      ∀ i < pre.length, matchPieces ps (s.drop i) = none := by
  intro s
  induction s with
  | nil =>
    intro pre segs rest h
    simp only [searchPieces] at h
    cases hm : matchPieces ps [] with
    | none => rw [hm] at h; simp at h
    | some x =>
      obtain ⟨segs', rest'⟩ := x
      rw [hm] at h
      simp only [Option.some.injEq, Prod.mk.injEq] at h
      obtain ⟨h1, h2, h3⟩ := h
      subst h1; subst h2; subst h3
      obtain ⟨hd, _⟩ := matchPieces_sound hm
      refine ⟨by simpa using hd, (matchPieces_sound hm).2, ?_, by simp⟩
      rw [← hd]; exact hm
  | cons c t ih =>
    intro pre segs rest h
    simp only [searchPieces] at h
    cases hm : matchPieces ps (c :: t) with
    | some x =>
      obtain ⟨segs', rest'⟩ := x
      rw [hm] at h
      simp only [Option.some.injEq, Prod.mk.injEq] at h
      obtain ⟨h1, h2, h3⟩ := h
      subst h1; subst h2; subst h3
      obtain ⟨hd, hf⟩ := matchPieces_sound hm
      refine ⟨by simpa using hd, hf, ?_, by simp⟩
      rw [← hd]; exact hm
    | none =>
      rw [hm] at h
      rw [Option.map_eq_some'] at h
      obtain ⟨⟨pre', segs', rest'⟩, hx, hmap⟩ := h
      simp only [Prod.mk.injEq] at hmap
      obtain ⟨h1, h2, h3⟩ := hmap
      subst h1; subst h2; subst h3
      obtain ⟨hd, hf, hmatch, hmin⟩ := ih hx
      refine ⟨by rw [List.cons_append, ← hd], hf, hmatch, ?_⟩
      intro i hi
      cases i with
      | zero => simpa using hm
      | succ j =>
        simp only [List.drop_succ_cons]
        exact hmin j (by simpa using hi)

/-- Completeness of the leftmost search: if the pattern fails at every
position inside `pre` and matches right after it, the search returns
exactly that decomposition. -/
theorem searchPieces_of_parts (ps : List Piece) :
    ∀ (pre s' : List Char) (segs : List (List Char)) (rest : List Char),
      (∀ i, i < pre.length → matchPieces ps (pre.drop i ++ s') = none) →
      matchPieces ps s' = some (segs, rest) →
      searchPieces ps (pre ++ s') = some (pre, segs, rest) := by
  intro pre
  induction pre with
  | nil =>
    intro s' segs rest _ hm
    cases s' with
    | nil => simp [searchPieces, hm]
    | cons c t => simp [searchPieces, hm]
  | cons c pre ih =>
    intro s' segs rest hmin hm
    have h0 : matchPieces ps (c :: (pre ++ s')) = none := by
      have := hmin 0 (by simp)
      simpa using this
    have hrec := ih s' segs rest
      (fun i hi => by
        have := hmin (i + 1) (by simp; omega)
        simpa using this) hm
    simp only [List.cons_append, searchPieces, List.append_eq, h0, hrec, Option.map_some']

/-- If the search fails, the pattern matches at no position. -/
theorem searchPieces_none {ps : List Piece} :
    ∀ {s : List Char}, searchPieces ps s = none →
      ∀ i, matchPieces ps (s.drop i) = none := by
  intro s
  induction s with
  | nil =>
    intro h i
    simp only [searchPieces] at h
    cases hm : matchPieces ps [] with
    | none => simpa using hm
    | some x => obtain ⟨a, b⟩ := x; rw [hm] at h; simp at h
  | cons c t ih =>
    intro h i
    simp only [searchPieces] at h
    cases hm : matchPieces ps (c :: t) with
    | some x => obtain ⟨a, b⟩ := x; rw [hm] at h; simp at h
    | none =>
      rw [hm] at h
      cases i with
      | zero => simpa using hm
      | succ j =>
        simp only [List.drop_succ_cons]
        cases hs : searchPieces ps t with
        | none => exact ih hs j
        | some x => rw [hs] at h; simp at h

theorem splitOnChar_ne_nil (sep : Char) : ∀ s : List Char, splitOnChar sep s ≠ [] := by
  intro s
  cases s with
  | nil => simp [splitOnChar]
  | cons c t =>
    by_cases hc : c = sep
    · simp [splitOnChar, hc]
    · simp only [splitOnChar, if_neg hc]
      cases splitOnChar sep t with
      | nil => simp
      | cons seg rest => simp

theorem splitOnChar_decomp (sep : Char) :
    ∀ s : List Char,
      splitOnChar sep s =
        s.takeWhile (fun c => c != sep) ::
          (if s.contains sep then
            splitOnChar sep ((s.dropWhile (fun c => c != sep)).tail)
          else []) := by
  intro s
  induction s with
  | nil => simp [splitOnChar]
  | cons c t ih =>
    by_cases hc : c = sep
    · subst hc
      simp [splitOnChar, List.takeWhile, List.dropWhile]
    · have hbne : (c != sep) = true := by simp [bne_iff_ne, hc]
      simp only [splitOnChar, if_neg hc]
      cases hsp : splitOnChar sep t with
      | nil => exact absurd hsp (splitOnChar_ne_nil sep t)
      | cons seg rest =>
        rw [hsp] at ih
        have hseg : seg = t.takeWhile (fun c => c != sep) := by
          have := ih
          injection this with h1 h2
        have hrest : rest =
            (if t.contains sep then
              splitOnChar sep ((t.dropWhile (fun c => c != sep)).tail)
            else []) := by
          injection ih with h1 h2
        have hcont : (c :: t).contains sep = t.contains sep := by
          simp [List.contains_cons, bne_iff_ne]
          intro h
          exact absurd h.symm hc
        rw [hcont]
        simp only [List.takeWhile, List.dropWhile, hbne]
        rw [hseg, hrest]

/-- Claim C9 (counterexample): the coordinate parser does not split at the
first colon only — on `a:b:c` it returns artifactId `b` (the second
`split(':', 2)` segment), not `b:c` as splitting on the first occurrence
would give. -/
theorem claim_c9_counterexample :
    parseMavenCoords ("a:b:c".data) = some ("a".data, "b".data) ∧
      ("b".data : List Char) ≠ ("b:c".data) := by
  constructor
  · rfl
  · decide

/-- Claim C9 (amended): the coordinate parser returns the pair formed by
the text before the first colon and the text between the first and second
colons (or the end); it returns null exactly when the colon is absent or
either of those two segments is empty. -/
theorem claim_c9_amended :
    ∀ s : List Char,
      parseMavenCoords s =
        if s.contains ':' ∧ s.takeWhile (fun c => c != ':') ≠ [] ∧
            ((s.dropWhile (fun c => c != ':')).tail).takeWhile (fun c => c != ':') ≠ [] then
          some (s.takeWhile (fun c => c != ':'),
            ((s.dropWhile (fun c => c != ':')).tail).takeWhile (fun c => c != ':'))
        else none := by
  intro s
  by_cases hc : s.contains ':' = true
  · have hne : ¬ s.isEmpty = true := by
      cases s with
      | nil => simp at hc
      | cons c t => simp
    rw [parseMavenCoords]
    rw [splitOnChar_decomp ':' s, if_pos hc,
      splitOnChar_decomp ':' ((s.dropWhile (fun c => c != ':')).tail)]
    simp only [hne, hc, Bool.not_true, Bool.or_false, Bool.false_or, if_neg]
    simp only [List.take_succ_cons, List.take_zero]
    by_cases h1 : s.takeWhile (fun c => c != ':') = []
    · simp [h1, List.isEmpty_iff, hc]
    · by_cases h2 :
          ((s.dropWhile (fun c => c != ':')).tail).takeWhile (fun c => c != ':') = []
      · simp [h1, h2, List.isEmpty_iff, hc]
      · simp [h1, h2, List.isEmpty_iff, hc]
  · have hcond : (s.isEmpty || !(s.contains ':')) = true := by
      simp [Bool.not_eq_true] at hc
      simp [hc]
    rw [parseMavenCoords, if_pos hcond]
    rw [if_neg (by intro hcontr; exact hc hcontr.1)]

/-- Claim C8: for every semantic version and every bump keyword among
major, minor and patch, the computed next version (node-semver `inc`,
modelled from the spec) clears the prerelease tag and resets every ordinal
below the bumped one to zero. -/
theorem claim_c8_inc_resets (v : SemVer) (kw : List Char)
    (hkw : kw = "major".data ∨ kw = "minor".data ∨ kw = "patch".data) :
    ∃ v', semverInc v kw = some v' ∧ v'.pre = [] ∧
      (kw = "major".data → v'.minor = 0 ∧ v'.patch = 0) ∧
      (kw = "minor".data → v'.patch = 0) := by
  rcases hkw with h | h | h <;> subst h
  · exact ⟨_, rfl, rfl, fun _ => ⟨rfl, rfl⟩, fun hh => absurd hh (by decide)⟩
  · exact ⟨_, rfl, rfl, fun hh => absurd hh (by decide), fun _ => rfl⟩
  · exact ⟨_, rfl, rfl, fun hh => absurd hh (by decide), fun hh => absurd hh (by decide)⟩

/-- Claim C8 (witness): the theorem applied to 1.2.3-rc with keyword
minor. -/
theorem claim_c8_witness :
    ∃ v', semverInc ⟨1, 2, 3, [("rc".data)]⟩ ("minor".data) = some v' ∧ v'.pre = [] ∧
      (("minor".data : List Char) = "major".data → v'.minor = 0 ∧ v'.patch = 0) ∧
      (("minor".data : List Char) = "minor".data → v'.patch = 0) :=
  claim_c8_inc_resets ⟨1, 2, 3, [("rc".data)]⟩ ("minor".data) (Or.inr (Or.inl rfl))

/-- Claim C3 (counterexample): a manifest holding a versioned non-matching
dependency block followed by a versionless block that does match the
coordinate g:a.  The versionless matching block exists (first two
conjuncts), yet the update is not byte-identical: the leftmost
dependency-block match spans from the first `<dependency>` and the
version of the unrelated block is rewritten. -/
theorem claim_c3_counterexample :
    (matchPieces (depPieces ("g".data) ("a".data))
      ("<dependency><groupId>g</groupId><artifactId>a</artifactId></dependency>".data)).isSome
        = true ∧
    searchPieces verTagPieces
      ("<dependency><groupId>g</groupId><artifactId>a</artifactId></dependency>".data) = none ∧
    updateDependencyVersionInPom
      (("<dependency><groupId>other</groupId><artifactId>x</artifactId><version>9</version></dependency><dependency><groupId>g</groupId><artifactId>a</artifactId></dependency>").data)
      ("g".data) ("a".data) ("3.0".data) =
      some (("<dependency><groupId>other</groupId><artifactId>x</artifactId><version>3.0</version></dependency><dependency><groupId>g</groupId><artifactId>a</artifactId></dependency>").data) ∧
    (("<dependency><groupId>other</groupId><artifactId>x</artifactId><version>3.0</version></dependency><dependency><groupId>g</groupId><artifactId>a</artifactId></dependency>").data : List Char) ≠
      ("<dependency><groupId>other</groupId><artifactId>x</artifactId><version>9</version></dependency><dependency><groupId>g</groupId><artifactId>a</artifactId></dependency>").data := by
  refine ⟨rfl, rfl, rfl, ?_⟩
  decide

/-- Claim C3 (amended): whenever the text matched by the leftmost
dependency-block search contains no version tag,
`updateDependencyVersionInPom` returns the manifest byte-identical. -/
theorem claim_c3_unchanged (pom g a nv pre : List Char)
    (segs : List (List Char)) (rest : List Char)
    (hb : searchPieces (depPieces g a) pom = some (pre, segs, rest))
    (hv : searchPieces verTagPieces segs.flatten = none) :
    updateDependencyVersionInPom pom g a nv = some pom := by
  unfold updateDependencyVersionInPom
  rw [hb]
  dsimp only
  rw [hv]

/-- Claim C3 (witness): the amended theorem applied to a single versionless
dependency block. -/
theorem claim_c3_witness :
    updateDependencyVersionInPom
      ("<dependency><groupId>g</groupId><artifactId>a</artifactId></dependency>".data)
      ("g".data) ("a".data) ("3.0".data) =
      some ("<dependency><groupId>g</groupId><artifactId>a</artifactId></dependency>".data) :=
  claim_c3_unchanged _ _ _ _ _ _ _ rfl rfl

/-- Claim C4: with two dependency blocks of which only the second matches
g:a, the non-greedy block pattern still spans both blocks (its lazy parts
cross the first block on the way to the matching coordinates), and the
version rewritten is the one of the unrelated first block while the
matching block's version text is left as it was. -/
theorem claim_c4_block_spanning :
    updateDependencyVersionInPom
      (("<dependencies><dependency><groupId>other.g</groupId><artifactId>x</artifactId><version>5.0</version></dependency><dependency><groupId>g</groupId><artifactId>a</artifactId><version>2.0</version></dependency></dependencies>").data)
      ("g".data) ("a".data) ("3.0".data) =
    some (("<dependencies><dependency><groupId>other.g</groupId><artifactId>x</artifactId><version>3.0</version></dependency><dependency><groupId>g</groupId><artifactId>a</artifactId><version>2.0</version></dependency></dependencies>").data) := rfl

theorem updateManifestsLoop_err (g a nv : List Char) :
    ∀ (ms : List (List Char × Option (List Char))) (path pom : List Char),
      (path, some pom) ∈ ms → updateProjectVersionInPom pom g a nv = none →
      (updateManifestsLoop g a nv ms).2.isSome = true := by
  intro ms
  induction ms with
  | nil => intro path pom hmem; simp at hmem
  | cons hd rest ih =>
    intro path pom hmem hfail
    obtain ⟨q, m⟩ := hd
    rcases List.mem_cons.mp hmem with hh | ht
    · injection hh with hq hm
      subst hm
      simp only [updateManifestsLoop, hfail]
      rfl
    · cases m with
      | none => simp [updateManifestsLoop]
      | some pom2 =>
        simp only [updateManifestsLoop]
        cases hu : updateProjectVersionInPom pom2 g a nv with
        | none => rfl
        | some out =>
          have := ih path pom ht hfail
          simpa using this

/-- Claim C5 (counterexample): in the standalone sync script, a manifest
without a version tag makes the write path complete with exit code 0 and
the file untouched — a logged warning, not an error. -/
theorem claim_c5_counterexample :
    syncPomScript (some ("<project><name>x</name></project>".data)) ("1.2.3".data) =
      (some ("<project><name>x</name></project>".data),
        SyncPomOutcome.versionTagWarning, 0) := rfl

/-- Claim C5 (amended): in the nx-maven-version `updateProjectVersion`
path a failed write-time scan of any manifest raises an error (first
conjunct), while the standalone sync script's failed scan is a warning:
it returns with the file byte-identical and the process exits 0 (second
conjunct). -/
theorem claim_c5_write_scan (projectName g a nv path pom : List Char)
    (manifests : List (List Char × Option (List Char)))
    (hcoords : parseMavenCoords projectName = some (g, a))
    (hmem : (path, some pom) ∈ manifests)
    (hfail : updateProjectVersionInPom pom g a nv = none) :
    (mavenUpdateProjectVersion projectName nv manifests).2.isSome = true ∧
    ∀ pom2 nv2 : List Char, searchPieces syncVerPieces pom2 = none →
      syncPomScript (some pom2) nv2 = (some pom2, SyncPomOutcome.versionTagWarning, 0) := by
  constructor
  · unfold mavenUpdateProjectVersion
    rw [hcoords]
    exact updateManifestsLoop_err g a nv manifests path pom hmem hfail
  · intro pom2 nv2 hnone
    unfold syncPomScript updatePomVersion
    dsimp only
    rw [hnone]

/-- Claim C5 (witness): the amended theorem at a one-manifest list whose
pom lacks the coordinate pattern. -/
theorem claim_c5_witness :
    (mavenUpdateProjectVersion ("g:a".data) ("2.0".data)
      [("pom.xml".data, some ("<project><name>x</name></project>".data))]).2.isSome = true ∧
    ∀ pom2 nv2 : List Char, searchPieces syncVerPieces pom2 = none →
      syncPomScript (some pom2) nv2 = (some pom2, SyncPomOutcome.versionTagWarning, 0) :=
  claim_c5_write_scan ("g:a".data) ("g".data) ("a".data) ("2.0".data) ("pom.xml".data)
    ("<project><name>x</name></project>".data)
    [("pom.xml".data, some ("<project><name>x</name></project>".data))]
    rfl (List.mem_singleton.mpr rfl) rfl

/-- Claim C6: in every release-script run, the plan files are deleted only
after the version-application step completed successfully (deletion in the
trace implies a successful non-dry apply step before it), deletion is the
second-to-last step, followed only by the lockfile refresh; and whenever
the run never reaches the deletion, every plan file is left intact. -/
theorem claim_c6_deletion_order (env : RelEnv) :
    (RelEv.deletedPlans ∈ (runReleaseScript env).trace →
      env.applyOk = true ∧ env.dryRun = false ∧
      RelEv.appliedVersions ∈ (runReleaseScript env).trace ∧
      ∃ t, (runReleaseScript env).trace = t ++ [RelEv.deletedPlans, RelEv.refreshedLockfile]) ∧
    (RelEv.deletedPlans ∉ (runReleaseScript env).trace →
      (runReleaseScript env).remainingPlans = env.files.filter (fun f => endsWithMd f.1)) := by
  obtain ⟨pde, files, applyOk, npmOk, dryRun⟩ := env
  simp only [runReleaseScript]
  cases pde with
  | false => constructor <;> intro h <;> simp_all
  | true =>
    simp only [Bool.not_true, Bool.false_eq_true, if_false]
    by_cases hpf : (files.filter (fun f => endsWithMd f.1)).isEmpty = true
    · simp only [hpf, if_true]
      constructor <;> intro h <;> simp_all
    · simp only [hpf, Bool.false_eq_true, if_false]
      by_cases hpl :
          (projectsToRelease ((files.filter (fun f => endsWithMd f.1)).map Prod.snd)).isEmpty
            = true
      · simp only [hpl, if_true]
        constructor <;> intro h <;> simp_all
      · simp only [hpl, Bool.false_eq_true, if_false]
        cases dryRun with
        | true =>
          simp only [Bool.not_true, Bool.false_and, Bool.and_false]
          constructor <;> intro h <;> simp_all
        | false =>
          simp only [Bool.not_false]
          cases applyOk with
          | false =>
            simp only [Bool.not_false, Bool.and_true, Bool.not_true, if_true]
            constructor <;> intro h <;> simp_all
          | true =>
            simp only [Bool.not_true, Bool.and_false, Bool.false_eq_true, if_false]
            cases npmOk with
            | true =>
              constructor
              · intro _
                refine ⟨by simp, by simp, by simp, ?_⟩
                exact ⟨[RelEv.checkedPlans, RelEv.appliedVersions, RelEv.readVersions,
                  RelEv.generatedChangelogs], by simp⟩
              · intro h
                exact absurd (by simp) h
            | false =>
              constructor
              · intro _
                refine ⟨by simp, by simp, by simp, ?_⟩
                exact ⟨[RelEv.checkedPlans, RelEv.appliedVersions, RelEv.readVersions,
                  RelEv.generatedChangelogs], by simp⟩
              · intro h
                exact absurd (by simp) h

/-- Claim C6 (witness): the ordering theorem at two concrete runs — a
successful real run, where deletion happens right before the lockfile
refresh, and a run with a failed apply step, where the plan file
survives. -/
theorem claim_c6_witness :
    (∃ t, (runReleaseScript
        ⟨true, [("a.md".data, ("---\n\"p\": patch\n---").data)], true, true, false⟩).trace
      = t ++ [RelEv.deletedPlans, RelEv.refreshedLockfile]) ∧
    (runReleaseScript
        ⟨true, [("a.md".data, ("---\n\"p\": patch\n---").data)], false, true, false⟩).remainingPlans
      = [("a.md".data, ("---\n\"p\": patch\n---").data)] := by
  constructor
  · exact ((claim_c6_deletion_order _).1 (by decide)).2.2.2
  · have h2 := (claim_c6_deletion_order
      (⟨true, [("a.md".data, ("---\n\"p\": patch\n---").data)], false, true, false⟩ : RelEnv)).2
      (by decide)
    rw [h2]
    decide

theorem mapGet_mapSet {α : Type} (m : List (List Char × α)) (k q : List Char) (v : α) :
    mapGet (mapSet m k v) q = if k = q then some v else mapGet m q := by
  induction m with
  | nil =>
    by_cases hk : k = q
    · simp [mapSet, mapGet, hk]
    · simp [mapSet, mapGet, hk]
  | cons hd rest ih =>
    obtain ⟨k', v'⟩ := hd
    by_cases hk : k' = k
    · subst hk
      by_cases hq : k' = q
      · simp [mapSet, mapGet, hq]
      · simp [mapSet, mapGet, hq]
    · by_cases hq : k' = q
      · subst hq
        have hne : ¬ k = k' := fun h => hk h.symm
        simp [mapSet, mapGet, hk, hne]
      · simp [mapSet, mapGet, hk, hq, ih]

theorem lastSpec_acc (q : List Char) :
    ∀ (entries : List (List Char × List Char)) (a : Option (List Char)),
      entries.foldl (fun acc e => if e.1 = q then some e.2 else acc) a =
        match lastSpec entries q with
        | some v => some v
        | none => a := by
  intro entries
  induction entries with
  | nil => intro a; simp [lastSpec]
  | cons e rest ih =>
    intro a
    simp only [lastSpec, List.foldl_cons] at ih ⊢
    by_cases he : e.1 = q
    · rw [if_pos he, if_pos he, ih (some e.2)]
      cases rest.foldl (fun acc e => if e.1 = q then some e.2 else acc) none with
      | none => rfl
      | some v => rfl
    · rw [if_neg he, if_neg he, ih a]

theorem lastSpec_cons (q : List Char) (e : List Char × List Char)
    (rest : List (List Char × List Char)) :
    lastSpec (e :: rest) q =
      match lastSpec rest q with
      | some v => some v
      | none => if e.1 = q then some e.2 else none := by
  rw [lastSpec, List.foldl_cons]
  exact lastSpec_acc q rest _

theorem mapGet_planFold (q : List Char) :
    ∀ (entries : List (List Char × List Char)) (m0 : List (List Char × List Char)),
      mapGet (entries.foldl (fun m e => mapSet m e.1 e.2) m0) q =
        match lastSpec entries q with
        | some v => some v
        | none => mapGet m0 q := by
  intro entries
  induction entries with
  | nil => intro m0; simp [lastSpec]
  | cons e rest ih =>
    intro m0
    simp only [List.foldl_cons]
    rw [ih (mapSet m0 e.1 e.2), mapGet_mapSet, lastSpec_cons]
    by_cases he : e.1 = q
    · rw [if_pos he, if_pos he]
      cases lastSpec rest q with
      | none => rfl
      | some v => rfl
    · rw [if_neg he, if_neg he]
      cases lastSpec rest q with
      | none => rfl
      | some v => rfl

theorem fileSpec_acc (q : List Char) :
    ∀ (files : List (List Char)) (a : Option (List Char)),
      files.foldl
          (fun acc f => match fileSpec f q with | some v => some v | none => acc) a =
        match files.foldl
            (fun acc f => match fileSpec f q with | some v => some v | none => acc) none with
        | some v => some v
        | none => a := by
  intro files
  induction files with
  | nil => intro a; simp
  | cons f rest ih =>
    intro a
    simp only [List.foldl_cons]
    cases hf : fileSpec f q with
    | some v =>
      rw [ih (some v)]
      cases rest.foldl
          (fun acc f => match fileSpec f q with | some v => some v | none => acc) none with
      | none => rfl
      | some w => rfl
    | none => rw [ih a]

theorem mapGet_projectsToRelease (q : List Char) :
    ∀ (files : List (List Char)),
      mapGet (projectsToRelease files) q =
        files.foldl (fun acc f => match fileSpec f q with | some v => some v | none => acc)
          none := by
  have main : ∀ (files : List (List Char)) (m0 : List (List Char × List Char)),
      mapGet (files.foldl
        (fun m content => (parsePlanFile content).foldl (fun m2 e => mapSet m2 e.1 e.2) m)
        m0) q =
      match files.foldl
          (fun acc f => match fileSpec f q with | some v => some v | none => acc) none with
      | some v => some v
      | none => mapGet m0 q := by
    intro files
    induction files with
    | nil => intro m0; simp
    | cons f rest ih =>
      intro m0
      simp only [List.foldl_cons]
      rw [ih ((parsePlanFile f).foldl (fun m2 e => mapSet m2 e.1 e.2) m0),
        mapGet_planFold q (parsePlanFile f) m0,
        fileSpec_acc q rest (match fileSpec f q with | some v => some v | none => none)]
      cases hrest : rest.foldl
          (fun acc f => match fileSpec f q with | some v => some v | none => acc) none with
      | some v => rfl
      | none =>
        cases hf : fileSpec f q with
        | some v =>
          have : lastSpec (parsePlanFile f) q = some v := hf
          rw [this]
        | none =>
          have : lastSpec (parsePlanFile f) q = none := hf
          rw [this]
  intro files
  rw [projectsToRelease, main files []]
  cases files.foldl (fun acc f => match fileSpec f q with | some v => some v | none => acc)
      none with
  | none => rfl
  | some v => rfl

theorem foldl_fileSpec_none (q : List Char) :
    ∀ (l : List (List Char)) (a : Option (List Char)),
      (∀ f ∈ l, fileSpec f q = none) →
      l.foldl (fun acc f => match fileSpec f q with | some v => some v | none => acc) a
        = a := by
  intro l
  induction l with
  | nil => intro a _; simp
  | cons f rest ih =>
    intro a hall
    simp only [List.foldl_cons]
    rw [hall f (List.mem_cons_self f rest)]
    exact ih a (fun f' hf' => hall f' (List.mem_cons_of_mem f hf'))

/-- Claim C7: when two plan files assign specifiers to the same project,
the merged project-to-specifier map carries the one from the file
processed last (first conjunct), and an entry of an earlier file for a
project that no later file assigns is retained (second conjunct). -/
theorem claim_c7_last_wins (l1 l2 l3 : List (List Char)) (fA fB p k1 k2 : List Char)
    (hA : fileSpec fA p = some k1)
    (hB : fileSpec fB p = some k2)
    (h3 : ∀ f ∈ l3, fileSpec f p = none) :
    mapGet (projectsToRelease (l1 ++ fA :: (l2 ++ fB :: l3))) p = some k2 ∧
    ∀ q kq, fileSpec fA q = some kq →
      (∀ f ∈ l2 ++ fB :: l3, fileSpec f q = none) →
      mapGet (projectsToRelease (l1 ++ fA :: (l2 ++ fB :: l3))) q = some kq := by
  constructor
  · rw [mapGet_projectsToRelease, List.foldl_append, List.foldl_cons, hA]
    simp only
    rw [List.foldl_append, List.foldl_cons, hB]
    simp only
    exact foldl_fileSpec_none p l3 (some k2) h3
  · intro q kq hq hrest
    rw [mapGet_projectsToRelease, List.foldl_append, List.foldl_cons, hq]
    simp only
    exact foldl_fileSpec_none q (l2 ++ fB :: l3) (some kq) hrest

/-- Claim C7 (witness): two one-line plan files assigning different
keywords to the same project, the minor-file processed last. -/
theorem claim_c7_witness :
    mapGet (projectsToRelease ([] ++ ("---\n\"app\": patch\n---\nnotes").data ::
      ([] ++ ("---\n\"app\": minor\n---").data :: []))) ("app".data) =
      some ("minor".data) ∧
    ∀ q kq, fileSpec (("---\n\"app\": patch\n---\nnotes").data) q = some kq →
      (∀ f ∈ ([] : List (List Char)) ++ ("---\n\"app\": minor\n---").data :: [],
        fileSpec f q = none) →
      mapGet (projectsToRelease ([] ++ ("---\n\"app\": patch\n---\nnotes").data ::
        ([] ++ ("---\n\"app\": minor\n---").data :: []))) q = some kq :=
  claim_c7_last_wins [] [] [] (("---\n\"app\": patch\n---\nnotes").data)
    (("---\n\"app\": minor\n---").data) ("app".data) ("patch".data) ("minor".data)
    rfl rfl (by intro f hf; simp at hf)

/-- Claim C10 (counterexample): a generator run over one project with an
empty specifier.  No write happens and the internal results entry keeps
the current version — but the function's return value (last component) is
`none`: generator.js ends without a return statement, so there is no
returned result mapping at all. -/
theorem claim_c10_counterexample :
    versionGenerator ⟨[], [], true, none⟩
      [(("apps/one").data,
        Manifest.pom (("<project><artifactId>one</artifactId><version>1.0.0</version></project>").data))]
      [⟨("g:one").data, ("apps/one").data⟩] =
    Except.ok
      (([(("apps/one").data,
          Manifest.pom (("<project><artifactId>one</artifactId><version>1.0.0</version></project>").data))],
        [(("g:one").data, ⟨("1.0.0").data, ("1.0.0").data, ("apps/one").data⟩)],
        []),
       none) := rfl

/-- Claim C10 (amended): for every project whose resolved specifier is
empty or whose computed new version equals the current version read from
disk, the generator performs no `setVersion` write and records a results
entry whose newVersion equals the current version (first conjunct) — but
the generator function itself returns undefined, never the results
mapping (second conjunct). -/
theorem claim_c10_no_write :
    (∀ (opts : GenOptions) (specMap : List (List Char × List Char)) (fs : FsModel)
        (p : ProjectInfo) (current : List Char),
      opts.diskResolver = true →
      getVersion (fsGet fs p.root) = Except.ok current →
      (genSpecifier opts specMap p = [] ∨
        genNewVersion (genSpecifier opts specMap p) current = some current) →
      generatorStep opts specMap fs p =
        Except.ok (fs, (p.name, ⟨current, current, p.root⟩), false)) ∧
    (∀ (opts : GenOptions) (fs : FsModel) (projects : List ProjectInfo)
        (st : (FsModel × List (List Char × GenEntry) × List (List Char)) ×
          Option (List (List Char × GenEntry))),
      versionGenerator opts fs projects = Except.ok st → st.2 = none) := by
  constructor
  · intro opts specMap fs p current hdisk hread hspec
    have hnv : genNewVersion (genSpecifier opts specMap p) current = some current := by
      rcases hspec with h | h
      · rw [genNewVersion, h]
        rfl
      · exact h
    unfold generatorStep
    rw [hdisk, hread]
    simp only [Bool.not_true, Bool.false_eq_true, if_false]
    rw [hnv]
    dsimp only
    rw [if_neg (fun h => h.2 rfl)]
    simp [ite_self]
  · intro opts fs projects st h
    unfold versionGenerator at h
    by_cases hp : projects.isEmpty = true
    · rw [if_pos hp] at h
      simp at h
    · rw [if_neg hp] at h
      dsimp only at h
      cases hloop : generatorLoop opts
          (match opts.versionPlans with
           | some contents => projectsToRelease contents
           | none => []) fs [] [] projects with
      | error e => rw [hloop] at h; simp [Except.map] at h
      | ok x =>
        rw [hloop] at h
        simp only [Except.map, Except.ok.injEq] at h
        rw [← h]

/-- Claim C10 (witness): the amended theorem at a concrete one-project
workspace with an empty specifier. -/
theorem claim_c10_witness :
    generatorStep ⟨[], [], true, none⟩ []
      [(("apps/one").data,
        Manifest.pom (("<project><artifactId>one</artifactId><version>1.0.0</version></project>").data))]
      ⟨("g:one").data, ("apps/one").data⟩ =
      Except.ok
        ([(("apps/one").data,
          Manifest.pom (("<project><artifactId>one</artifactId><version>1.0.0</version></project>").data))],
         (("g:one").data, ⟨("1.0.0").data, ("1.0.0").data, ("apps/one").data⟩),
         false) ∧
    ((([(("apps/one").data,
          Manifest.pom (("<project><artifactId>one</artifactId><version>1.0.0</version></project>").data))],
        [(("g:one").data, ⟨("1.0.0").data, ("1.0.0").data, ("apps/one").data⟩)],
        ([] : List (List Char))),
       (none : Option (List (List Char × GenEntry)))) :
      (FsModel × List (List Char × GenEntry) × List (List Char)) ×
        Option (List (List Char × GenEntry))).2 = none := by
  constructor
  · exact claim_c10_no_write.1 ⟨[], [], true, none⟩ []
      [(("apps/one").data,
        Manifest.pom (("<project><artifactId>one</artifactId><version>1.0.0</version></project>").data))]
      ⟨("g:one").data, ("apps/one").data⟩ (("1.0.0").data) rfl rfl (Or.inl rfl)
  · exact claim_c10_no_write.2 ⟨[], [], true, none⟩
      [(("apps/one").data,
        Manifest.pom (("<project><artifactId>one</artifactId><version>1.0.0</version></project>").data))]
      [⟨("g:one").data, ("apps/one").data⟩] _ rfl

/-- The segment shape of any successful match of the project-coordinate
pattern: literal tags, whitespace runs, the lazy gap and a nonempty
`<`-free version capture. -/
theorem projSegs_shape {g a : List Char} {segs : List (List Char)}
    (h : List.Forall₂ PieceFits (projPieces g a) segs) :
    ∃ w1 w2 lz w3 w4 w5 cap,
      segs = [gOpen, w1, g, w2, gClose, lz, aOpen, w3, a, w4, aClose, w5, vOpen, cap,
        vClose] ∧
      cap ≠ [] ∧ (∀ c ∈ cap, notLt c = true) ∧
      (∀ c ∈ w1, isWs c = true) ∧ (∀ c ∈ w2, isWs c = true) ∧
      (∀ c ∈ w3, isWs c = true) ∧ (∀ c ∈ w4, isWs c = true) ∧
      (∀ c ∈ w5, isWs c = true) := by
  simp only [projPieces, tailPieces, List.cons_append, List.nil_append] at h
  obtain ⟨s0, u0, h0, hnext0, hu0⟩ := List.forall₂_cons_left_iff.mp h
  subst hu0
  obtain ⟨s1, u1, h1, hnext1, hu1⟩ := List.forall₂_cons_left_iff.mp hnext0
  subst hu1
  obtain ⟨s2, u2, h2, hnext2, hu2⟩ := List.forall₂_cons_left_iff.mp hnext1
  subst hu2
  obtain ⟨s3, u3, h3, hnext3, hu3⟩ := List.forall₂_cons_left_iff.mp hnext2
  subst hu3
  obtain ⟨s4, u4, h4, hnext4, hu4⟩ := List.forall₂_cons_left_iff.mp hnext3
  subst hu4
  obtain ⟨s5, u5, h5, hnext5, hu5⟩ := List.forall₂_cons_left_iff.mp hnext4
  subst hu5
  obtain ⟨s6, u6, h6, hnext6, hu6⟩ := List.forall₂_cons_left_iff.mp hnext5
  subst hu6
  obtain ⟨s7, u7, h7, hnext7, hu7⟩ := List.forall₂_cons_left_iff.mp hnext6
  subst hu7
  obtain ⟨s8, u8, h8, hnext8, hu8⟩ := List.forall₂_cons_left_iff.mp hnext7
  subst hu8
  obtain ⟨s9, u9, h9, hnext9, hu9⟩ := List.forall₂_cons_left_iff.mp hnext8
  subst hu9
  obtain ⟨s10, u10, h10, hnext10, hu10⟩ := List.forall₂_cons_left_iff.mp hnext9
  subst hu10
  obtain ⟨s11, u11, h11, hnext11, hu11⟩ := List.forall₂_cons_left_iff.mp hnext10
  subst hu11
  obtain ⟨s12, u12, h12, hnext12, hu12⟩ := List.forall₂_cons_left_iff.mp hnext11
  subst hu12
  obtain ⟨s13, u13, h13, hnext13, hu13⟩ := List.forall₂_cons_left_iff.mp hnext12
  subst hu13
  obtain ⟨s14, u14, h14, hnext14, hu14⟩ := List.forall₂_cons_left_iff.mp hnext13
  subst hu14
  have hu : u14 = [] := List.forall₂_nil_left_iff.mp hnext14
  subst hu
  simp only [PieceFits] at h0 h1 h2 h3 h4 h5 h6 h7 h8 h9 h10 h11 h12 h13 h14
  subst h0; subst h2; subst h4; subst h6; subst h8; subst h10; subst h12; subst h14
  exact ⟨s1, s3, s5, s7, s9, s11, s13, rfl, h13.1, h13.2, h1, h3, h7, h9, h11⟩

/-- A dollar-free segment of a replacement template passes through
`getSubstitution` unchanged. -/
theorem getSubstitution_no_dollar (matched before after : List Char)
    (caps : List (List Char)) {u : List Char} (hu : '$' ∉ u) (t : List Char) :
    getSubScan matched before after caps false (u ++ t) =
      u ++ getSubScan matched before after caps false t := by
  induction u with
  | nil => simp
  | cons c u' ih =>
    have hc : c ≠ '$' := fun h => hu (h ▸ List.mem_cons_self _ _)
    rw [List.cons_append]
    simp only [getSubScan]
    rw [if_neg hc, ih (fun hm => hu (List.mem_cons_of_mem _ hm))]
    rfl

/-- The trailing group-three reference of the update template. -/
theorem getSubstitution_d3 (matched before after g1 g2 g3 : List Char) :
    getSubScan matched before after [g1, g2, g3] false ("$3".data) = g3 := rfl

/-- On a three-group match, the template dollar-one, `nv`, dollar-three
splices literally whenever `nv` is free of dollars (a two-digit group
reference formed with a leading digit of `nv` exceeds the group count and
falls back to group one). -/
theorem getSubstitution_splice (matched before after g1 g2 g3 nv : List Char)
    (hnv : '$' ∉ nv) :
    getSubstitution matched before after [g1, g2, g3]
      (("$1".data) ++ nv ++ ("$3".data)) = g1 ++ nv ++ g3 := by
  cases nv with
  | nil =>
    have h : getSubstitution matched before after [g1, g2, g3]
        (("$1".data) ++ [] ++ ("$3".data)) = g1 ++ g3 := rfl
    exact h.trans (by simp)
  | cons d nv' =>
    have hd : d ≠ '$' := fun h => hnv (h ▸ List.mem_cons_self _ _)
    have hnv' : '$' ∉ nv' := fun hm => hnv (List.mem_cons_of_mem _ hm)
    have htail : getSubScan matched before after [g1, g2, g3] false
        (nv' ++ ("$3".data)) = nv' ++ g3 := by
      rw [getSubstitution_no_dollar _ _ _ _ hnv' _, getSubstitution_d3]
    show getSubScan matched before after [g1, g2, g3] true
      ('1' :: d :: (nv' ++ ("$3".data))) = g1 ++ (d :: nv') ++ g3
    simp only [getSubScan]
    rw [if_neg (by decide), if_neg (by decide), if_neg (by decide), if_neg (by decide),
      if_pos (by decide)]
    by_cases hdig : d.isDigit = true
    · rw [if_pos hdig]
      rw [if_neg (by
        intro hcontr
        have h2 := hcontr.2
        rw [show ('1'.toNat - 48) = 1 from rfl] at h2
        simp only [List.length_cons, List.length_nil] at h2
        omega)]
      rw [if_pos (And.intro (by decide) (by show (1 : Nat) ≤ 3; decide))]
      rw [htail]
      simp [List.append_assoc]
    · rw [if_neg hdig,
        if_pos (And.intro (by decide) (by show (1 : Nat) ≤ 3; decide)), if_neg hd]
      rw [htail]
      simp [List.append_assoc]

/-- Claim C2 (counterexample): a manifest whose dependencies section
declares com.x:other (version 5) and org.y:app (version 7) before the
project's own com.x:app declaration (version 1.0).  The leftmost match of
the coordinate pattern for com.x:app starts at the dependency
`<groupId>com.x</groupId>` and lazily runs to the artifactId of the other
dependency, so the project's own version update rewrites the version of
the dependency org.y:app (7 becomes 9.9) and leaves the project's own
version element untouched. -/
theorem claim_c2_counterexample :
    readProjectVersionFromPom
      (("<deps><dependency><groupId>com.x</groupId><artifactId>other</artifactId><version>5</version></dependency><dependency><groupId>org.y</groupId><artifactId>app</artifactId><version>7</version></dependency></deps><groupId>com.x</groupId><artifactId>app</artifactId><version>1.0</version>").data)
      ("com.x".data) ("app".data) = some ("7".data) ∧
    updateProjectVersionInPom
      (("<deps><dependency><groupId>com.x</groupId><artifactId>other</artifactId><version>5</version></dependency><dependency><groupId>org.y</groupId><artifactId>app</artifactId><version>7</version></dependency></deps><groupId>com.x</groupId><artifactId>app</artifactId><version>1.0</version>").data)
      ("com.x".data) ("app".data) ("9.9".data) =
      some (("<deps><dependency><groupId>com.x</groupId><artifactId>other</artifactId><version>5</version></dependency><dependency><groupId>org.y</groupId><artifactId>app</artifactId><version>9.9</version></dependency></deps><groupId>com.x</groupId><artifactId>app</artifactId><version>1.0</version>").data) := by
  exact ⟨rfl, rfl⟩

/-- Claim C2 (amended): for every dollar-free new version text, whatever
`updateProjectVersionInPom` rewrites, it changes only the version text
captured by the leftmost match of the coordinate-scoped pattern — the
input and output agree byte-for-byte outside that nonempty `<`-free
capture, and the pattern matches at no earlier position of the manifest.
(A new version containing a dollar goes through the ECMAScript
substitution of the replacement template instead of being copied.) -/
theorem claim_c2_leftmost_only (pom g a nv out : List Char) (hnv : '$' ∉ nv)
    (h : updateProjectVersionInPom pom g a nv = some out) :
    ∃ pre mid oldv rest,
      pom = pre ++ (mid ++ vOpen) ++ oldv ++ vClose ++ rest ∧
      out = pre ++ (mid ++ vOpen) ++ nv ++ vClose ++ rest ∧
      oldv ≠ [] ∧ (∀ c ∈ oldv, notLt c = true) ∧
      (∀ i, i < pre.length → matchPieces (projPieces g a) (pom.drop i) = none) := by
  unfold updateProjectVersionInPom at h
  cases hs : searchPieces (projPieces g a) pom with
  | none => rw [hs] at h; simp at h
  | some x =>
    obtain ⟨pre, segs, rest⟩ := x
    rw [hs] at h
    simp only [Option.some.injEq] at h
    obtain ⟨hdec, hfits, _, hmin⟩ := searchPieces_sound hs
    obtain ⟨w1, w2, lz, w3, w4, w5, cap, hsegs, hcapne, hcaplt, _⟩ := projSegs_shape hfits
    subst hsegs
    rw [getSubstitution_splice _ _ _ _ _ _ _ hnv] at h
    refine ⟨pre, gOpen ++ w1 ++ g ++ w2 ++ gClose ++ lz ++ aOpen ++ w3 ++ a ++ w4 ++
      aClose ++ w5, cap, rest, ?_, ?_, hcapne, hcaplt, hmin⟩
    · rw [hdec]; simp [List.flatten]
    · rw [← h]; simp [List.flatten, List.getD]

/-- Claim C2 (witness): the frame theorem at a concrete manifest. -/
theorem claim_c2_witness :
    ∃ pre mid oldv rest,
      (("<groupId>g</groupId><artifactId>a</artifactId><version>1.0</version>").data :
        List Char) = pre ++ (mid ++ vOpen) ++ oldv ++ vClose ++ rest ∧
      (("<groupId>g</groupId><artifactId>a</artifactId><version>2.0</version>").data :
        List Char) = pre ++ (mid ++ vOpen) ++ ("2.0".data) ++ vClose ++ rest ∧
      oldv ≠ [] ∧ (∀ c ∈ oldv, notLt c = true) ∧
      (∀ i, i < pre.length →
        matchPieces (projPieces ("g".data) ("a".data))
          ((("<groupId>g</groupId><artifactId>a</artifactId><version>1.0</version>").data).drop i)
          = none) :=
  claim_c2_leftmost_only
    (("<groupId>g</groupId><artifactId>a</artifactId><version>1.0</version>").data)
    ("g".data) ("a".data) ("2.0".data)
    (("<groupId>g</groupId><artifactId>a</artifactId><version>2.0</version>").data)
    (by decide) rfl

/-- Collapse of greedy `\s*` before a literal with a non-whitespace head:
the whitespace run is deterministic. -/
theorem mp_ws_lit (c0 : Char) (l : List Char) (ps : List Piece) (hc0 : isWs c0 = false) :
    ∀ s : List Char,
      matchPieces (Piece.ws :: Piece.lit (c0 :: l) :: ps) s =
        match matchPieces (Piece.lit (c0 :: l) :: ps) (s.dropWhile isWs) with
        | some x => some (s.takeWhile isWs :: x.1, x.2)
        | none => none := by
  intro s
  induction s with
  | nil =>
    rw [matchPieces_ws_nil]
    simp only [List.dropWhile_nil, List.takeWhile_nil]
    cases hm : matchPieces (Piece.lit (c0 :: l) :: ps) [] with
    | none => rfl
    | some x => rfl
  | cons c t ih =>
    rw [matchPieces_ws_cons]
    cases hw : isWs c with
    | true =>
      rw [List.dropWhile_cons_of_pos hw, List.takeWhile_cons_of_pos hw]
      simp only
      rw [ih]
      cases hm : matchPieces (Piece.lit (c0 :: l) :: ps) (t.dropWhile isWs) with
      | some x => rfl
      | none =>
        have hne : ¬ c0 = c := by
          intro h
          rw [h, hw] at hc0
          exact Bool.true_eq_false.mp hc0
        rw [matchPieces_lit]
        simp only [chomp, if_neg hne]
        rfl
    | false =>
      rw [List.dropWhile_cons_of_neg (by simp [hw]), List.takeWhile_cons_of_neg (by simp [hw])]
      simp only
      cases hm : matchPieces (Piece.lit (c0 :: l) :: ps) (c :: t) with
      | some x => rfl
      | none => rfl

/-- Collapse of greedy `[class]*` before a literal whose head is outside
the class. -/
theorem mp_clsStar_lit (p : Char → Bool) (c0 : Char) (l : List Char) (ps : List Piece)
    (hc0 : p c0 = false) :
    ∀ s : List Char,
      matchPieces (Piece.clsStar p :: Piece.lit (c0 :: l) :: ps) s =
        match matchPieces (Piece.lit (c0 :: l) :: ps) (s.dropWhile p) with
        | some x => some (s.takeWhile p :: x.1, x.2)
        | none => none := by
  intro s
  induction s with
  | nil =>
    rw [matchPieces_clsStar_nil]
    simp only [List.dropWhile_nil, List.takeWhile_nil]
    cases hm : matchPieces (Piece.lit (c0 :: l) :: ps) [] with
    | none => rfl
    | some x => rfl
  | cons c t ih =>
    rw [matchPieces_clsStar_cons]
    cases hw : p c with
    | true =>
      rw [List.dropWhile_cons_of_pos hw, List.takeWhile_cons_of_pos hw]
      simp only
      rw [ih]
      cases hm : matchPieces (Piece.lit (c0 :: l) :: ps) (t.dropWhile p) with
      | some x => rfl
      | none =>
        have hne : ¬ c0 = c := by
          intro h
          rw [h, hw] at hc0
          exact Bool.true_eq_false.mp hc0
        rw [matchPieces_lit]
        simp only [chomp, if_neg hne]
        rfl
    | false =>
      rw [List.dropWhile_cons_of_neg (by simp [hw]), List.takeWhile_cons_of_neg (by simp [hw])]
      simp only
      cases hm : matchPieces (Piece.lit (c0 :: l) :: ps) (c :: t) with
      | some x => rfl
      | none => rfl

/-- Collapse of greedy `[class]+` before a literal whose head is outside
the class: the capture is the maximal class run and must be nonempty. -/
theorem mp_cls_lit (p : Char → Bool) (c0 : Char) (l : List Char) (ps : List Piece)
    (hc0 : p c0 = false) :
    ∀ s : List Char,
      matchPieces (Piece.cls p :: Piece.lit (c0 :: l) :: ps) s =
        if (s.takeWhile p).isEmpty then none
        else
          match matchPieces (Piece.lit (c0 :: l) :: ps) (s.dropWhile p) with
          | some x => some (s.takeWhile p :: x.1, x.2)
          | none => none := by
  intro s
  cases s with
  | nil =>
    rw [matchPieces_cls]
    simp
  | cons c t =>
    rw [matchPieces_cls]
    dsimp only
    cases hw : p c with
    | false =>
      rw [List.takeWhile_cons_of_neg (by simp [hw])]
      simp
    | true =>
      rw [List.dropWhile_cons_of_pos hw, List.takeWhile_cons_of_pos hw]
      simp only [List.isEmpty_cons, if_neg Bool.false_ne_true]
      rw [mp_clsStar_lit p c0 l ps hc0 t]
      cases hm : matchPieces (Piece.lit (c0 :: l) :: ps) (t.dropWhile p) with
      | some x => rfl
      | none => rfl

/-! ### Boundary toolkit for the round-trip analysis (claim C1) -/

theorem chomp_some_iff {cs s r : List Char} : chomp cs s = some r ↔ s = cs ++ r := by
  constructor
  · exact chomp_sound
  · intro h
    rw [h]
    exact chomp_append cs r

theorem chomp_cons_ne {c d : Char} (h : c ≠ d) (cs t : List Char) :
    chomp (c :: cs) (d :: t) = none := by
  simp [chomp, h]

theorem chomp_append_of_le {cs z : List Char} (h : cs.length ≤ z.length) (R : List Char) :
    chomp cs (z ++ R) = (chomp cs z).map (fun r => r ++ R) := by
  induction cs generalizing z with
  | nil => simp [chomp]
  | cons c cs ih =>
    cases z with
    | nil => simp at h
    | cons d z' =>
      by_cases hc : c = d
      · simp only [List.cons_append, chomp, if_pos hc]
        exact ih (by simp at h ⊢; omega) 
      · simp [List.cons_append, chomp, hc]

theorem endsGt_append {v : List Char} (u : List Char) (h : endsGt v) : endsGt (u ++ v) := by
  obtain ⟨y, rfl⟩ := h
  exact ⟨u ++ y, by simp⟩

theorem mem_gt_of_endsGt {z : List Char} (h : endsGt z) : '>' ∈ z := by
  obtain ⟨y, rfl⟩ := h
  simp

theorem endsGt_ne_nil {z : List Char} (h : endsGt z) : z ≠ [] := by
  obtain ⟨y, rfl⟩ := h
  simp

theorem endsGt_of_append_eq {q z' y : List Char} (h : q ++ z' = y ++ ['>'])
    (hz : z' ≠ []) : endsGt z' := by
  induction q generalizing y with
  | nil => exact ⟨y, h⟩
  | cons c q' ih =>
    cases y with
    | nil =>
      simp only [List.nil_append, List.cons_append] at h
      have h2 := (List.cons.injEq _ _ _ _).mp h
      exact absurd (List.append_eq_nil.mp h2.2).2 hz
    | cons d y' =>
      simp only [List.cons_append, List.cons.injEq] at h
      exact ih h.2

theorem endsGt_suffix {z z' : List Char} (h : endsGt z) (hs : z' <:+ z) (hne : z' ≠ []) :
    endsGt z' := by
  obtain ⟨q, hq⟩ := hs
  obtain ⟨y, hy⟩ := h
  exact endsGt_of_append_eq (hq.symm ▸ hy : q ++ z' = y ++ ['>']) hne

theorem dropWhile_ne_nil_of_endsGt {z : List Char} (h : endsGt z) :
    z.dropWhile isWs ≠ [] := by
  intro hcontr
  exact absurd (List.dropWhile_eq_nil_iff.mp hcontr '>' (mem_gt_of_endsGt h)) (by decide)

theorem dropWhile_notLt_ne_nil {z : List Char} (h : '<' ∈ z) :
    z.dropWhile notLt ≠ [] := by
  intro hcontr
  exact absurd (List.dropWhile_eq_nil_iff.mp hcontr '<' h) (by decide)

theorem chomp_cross_gt {cs z : List Char} (hz : endsGt z) (hlen : z.length < cs.length)
    (hcs : '>' ∉ cs.dropLast) (R : List Char) : chomp cs (z ++ R) = none := by
  obtain ⟨y, rfl⟩ := hz
  induction y generalizing cs with
  | nil =>
    cases cs with
    | nil => simp at hlen
    | cons c cs' =>
      cases cs' with
      | nil => simp at hlen
      | cons c2 cs'' =>
        have hcne : c ≠ '>' := by
          intro hcontr
          apply hcs
          have hdl : (c :: c2 :: cs'').dropLast = c :: (c2 :: cs'').dropLast := rfl
          rw [hdl, hcontr]
          exact List.mem_cons_self _ _
        simp only [List.nil_append, List.singleton_append]
        exact chomp_cons_ne hcne _ _
  | cons c y' ih =>
    cases cs with
    | nil => simp at hlen
    | cons c1 cs' =>
      by_cases hc : c1 = c
      · have hne : cs' ≠ [] := by
          intro hcontr
          rw [hcontr] at hlen
          simp at hlen
        have h1 : (y' ++ ['>']).length < cs'.length := by
          simp only [List.length_append, List.length_cons, List.length_singleton] at hlen ⊢
          omega
        have h2 : '>' ∉ cs'.dropLast := by
          intro hm
          apply hcs
          cases cs' with
          | nil => exact absurd rfl hne
          | cons a l =>
            rw [show (c1 :: a :: l).dropLast = c1 :: (a :: l).dropLast from rfl]
            exact List.mem_cons_of_mem _ hm
        simp only [List.cons_append, chomp, if_pos hc]
        exact ih h2 h1
      · simp only [List.cons_append]
        exact chomp_cons_ne hc _ _

theorem chomp_cross_noLt {cs s : List Char} (hcs : '<' ∉ cs) (hs : ∀ c ∈ s, c ≠ '<')
    (hlen : s.length < cs.length) (R : List Char) :
    chomp cs (s ++ '<' :: R) = none := by
  induction s generalizing cs with
  | nil =>
    cases cs with
    | nil => simp at hlen
    | cons c cs' =>
      have : c ≠ '<' := fun h => hcs (h ▸ List.mem_cons_self _ _)
      exact chomp_cons_ne this _ _
  | cons d s' ih =>
    cases cs with
    | nil => simp at hlen
    | cons c cs' =>
      by_cases hc : c = d
      · simp only [List.cons_append, chomp, if_pos hc]
        exact ih (fun h => hcs (List.mem_cons_of_mem _ h))
          (fun e hm => hs e (List.mem_cons_of_mem _ hm))
          (by simp only [List.length_cons] at hlen ⊢; omega)
      · simp only [List.cons_append]
        exact chomp_cons_ne hc _ _

theorem tdw_drop {p : Char → Bool} {z : List Char} (h : z.dropWhile p ≠ []) (R : List Char) :
    (z ++ R).dropWhile p = z.dropWhile p ++ R := by
  induction z with
  | nil => simp at h
  | cons c z' ih =>
    cases hc : p c with
    | true =>
      rw [List.cons_append, List.dropWhile_cons_of_pos hc, List.dropWhile_cons_of_pos hc]
      exact ih (by rwa [List.dropWhile_cons_of_pos hc] at h)
    | false =>
      rw [List.cons_append, List.dropWhile_cons_of_neg (by simp [hc]),
        List.dropWhile_cons_of_neg (by simp [hc])]
      rfl

theorem tdw_take {p : Char → Bool} {z : List Char} (h : z.dropWhile p ≠ []) (R : List Char) :
    (z ++ R).takeWhile p = z.takeWhile p := by
  induction z with
  | nil => simp at h
  | cons c z' ih =>
    cases hc : p c with
    | true =>
      rw [List.cons_append, List.takeWhile_cons_of_pos hc, List.takeWhile_cons_of_pos hc]
      rw [ih (by rwa [List.dropWhile_cons_of_pos hc] at h)]
    | false =>
      rw [List.cons_append, List.takeWhile_cons_of_neg (by simp [hc]),
        List.takeWhile_cons_of_neg (by simp [hc])]

theorem tdw_drop_nil {p : Char → Bool} {z : List Char} (h : z.dropWhile p = [])
    (R : List Char) : (z ++ R).dropWhile p = R.dropWhile p := by
  induction z with
  | nil => simp
  | cons c z' ih =>
    cases hc : p c with
    | false =>
      rw [List.dropWhile_cons_of_neg (by simp [hc])] at h
      exact absurd h (by simp)
    | true =>
      rw [List.cons_append, List.dropWhile_cons_of_pos hc]
      exact ih (by rwa [List.dropWhile_cons_of_pos hc] at h)

theorem takeWhile_all_stop {p : Char → Bool} {u : List Char} (hu : ∀ c ∈ u, p c = true)
    {c : Char} (hc : p c = false) (R : List Char) :
    (u ++ c :: R).takeWhile p = u ∧ (u ++ c :: R).dropWhile p = c :: R := by
  induction u with
  | nil =>
    simp only [List.nil_append]
    exact ⟨List.takeWhile_cons_of_neg (by simp [hc]), List.dropWhile_cons_of_neg (by simp [hc])⟩
  | cons d u' ih =>
    have hd : p d = true := hu d (List.mem_cons_self _ _)
    have ih' := ih (fun e hm => hu e (List.mem_cons_of_mem _ hm))
    constructor
    · rw [List.cons_append, List.takeWhile_cons_of_pos hd, ih'.1]
    · rw [List.cons_append, List.dropWhile_cons_of_pos hd]
      exact ih'.2

theorem vClose_cons (w : List Char) : vClose ++ w = '<' :: ("/version>".data ++ w) := rfl

theorem chomp_gClose_vClose (w : List Char) : chomp gClose (vClose ++ w) = none := rfl

theorem chomp_aClose_vClose (w : List Char) : chomp aClose (vClose ++ w) = none := rfl

theorem chomp_vOpen_vClose (w : List Char) : chomp vOpen (vClose ++ w) = none := rfl

theorem artTailD_vClose (a w : List Char) : artTailD a (vClose ++ w) = none := rfl

theorem dropWhile_vClose (w : List Char) : (vClose ++ w).dropWhile isWs = vClose ++ w := by
  rw [vClose_cons, List.dropWhile_cons_of_neg (by decide)]

theorem art_head_ne {c : Char} (hc : c ≠ '<') (a s : List Char) :
    artTailD a (c :: s) = none := by
  have h1 : chomp aOpen (c :: s) = none := by
    rw [show aOpen = '<' :: ("artifactId>".data) from rfl]
    exact chomp_cons_ne (Ne.symm hc) _ _
  simp [artTailD, h1]

theorem tag_at_capRegion_none (tag : List Char) (htag : ∃ t, tag = '<' :: t)
    (htagv : ∀ w, chomp tag (vClose ++ w) = none)
    {Y : List Char} (hY : ∀ c ∈ Y, c ≠ '<') (w : List Char) :
    chomp tag ((Y ++ (vClose ++ w)).dropWhile isWs) = none := by
  by_cases hYd : Y.dropWhile isWs = []
  · rw [tdw_drop_nil hYd, dropWhile_vClose]
    exact htagv w
  · rw [tdw_drop hYd]
    cases hYs : Y.dropWhile isWs with
    | nil => exact absurd hYs hYd
    | cons y ys =>
      obtain ⟨t, rfl⟩ := htag
      have hy : y ≠ '<' := by
        apply hY
        have hm : y ∈ Y.dropWhile isWs := by
          rw [hYs]
          exact List.mem_cons_self _ _
        exact (List.dropWhile_suffix _).subset hm
      exact chomp_cons_ne (Ne.symm hy) _ _

theorem capRegion_step (tok ctag : List Char) (htokne : tok ≠ []) (htok : '<' ∉ tok)
    (hctag : ∃ t, ctag = '<' :: t) (hctagv : ∀ w, chomp ctag (vClose ++ w) = none)
    {Y : List Char} (hY : ∀ c ∈ Y, c ≠ '<') (w : List Char) :
    chomp tok ((Y ++ (vClose ++ w)).dropWhile isWs) = none ∨
      ∃ s3, chomp tok ((Y ++ (vClose ++ w)).dropWhile isWs) = some s3 ∧
        chomp ctag (s3.dropWhile isWs) = none := by
  by_cases hYd : Y.dropWhile isWs = []
  · left
    rw [tdw_drop_nil hYd, dropWhile_vClose]
    cases tok with
    | nil => exact absurd rfl htokne
    | cons t0 tokT =>
      have ht0 : t0 ≠ '<' := fun h => htok (h ▸ List.mem_cons_self _ _)
      rw [vClose_cons]
      exact chomp_cons_ne ht0 _ _
  · rw [tdw_drop hYd]
    have hYDsub : ∀ c ∈ Y.dropWhile isWs, c ≠ '<' :=
      fun c hm => hY c ((List.dropWhile_suffix _).subset hm)
    by_cases hlen : tok.length ≤ (Y.dropWhile isWs).length
    · rw [chomp_append_of_le hlen]
      cases hct : chomp tok (Y.dropWhile isWs) with
      | none => exact Or.inl rfl
      | some Y2 =>
        right
        refine ⟨Y2 ++ (vClose ++ w), rfl, ?_⟩
        have hY2 : ∀ c ∈ Y2, c ≠ '<' := by
          have hsnd := chomp_sound hct
          intro c hm
          exact hYDsub c (by rw [hsnd]; exact List.mem_append_right _ hm)
        exact tag_at_capRegion_none ctag hctag hctagv hY2 w
    · left
      rw [vClose_cons]
      exact chomp_cross_noLt htok hYDsub (by omega) _

theorem grpParseD_sound {g s : List Char} {w1 w2 s5 : List Char}
    (h : grpParseD g s = some (w1, w2, s5)) :
    s = gOpen ++ w1 ++ g ++ w2 ++ gClose ++ s5 ∧
      (∀ c ∈ w1, isWs c = true) ∧ (∀ c ∈ w2, isWs c = true) := by
  unfold grpParseD at h
  cases h1 : chomp gOpen s with
  | none => rw [h1] at h; simp at h
  | some s1 =>
    rw [h1] at h
    simp only [Option.some_bind] at h
    cases h2 : chomp g (s1.dropWhile isWs) with
    | none => rw [h2] at h; simp at h
    | some s3 =>
      rw [h2] at h
      simp only [Option.some_bind] at h
      cases h3 : chomp gClose (s3.dropWhile isWs) with
      | none => rw [h3] at h; simp at h
      | some s5' =>
        rw [h3] at h
        simp only [Option.map_some'] at h
        simp only [Option.some.injEq, Prod.mk.injEq] at h
        obtain ⟨rfl, rfl, rfl⟩ := h
        refine ⟨?_, fun c hm => List.mem_takeWhile_imp hm, fun c hm => List.mem_takeWhile_imp hm⟩
        have e1 := chomp_sound h1
        have e2 := chomp_sound h2
        have e3 := chomp_sound h3
        set wA := List.takeWhile isWs s1 with hwA
        set wB := List.takeWhile isWs s3 with hwB
        have f1 : s1 = wA ++ (g ++ s3) := by
          rw [← e2, hwA, List.takeWhile_append_dropWhile]
        have f2 : s3 = wB ++ (gClose ++ s5') := by
          rw [← e3, hwB, List.takeWhile_append_dropWhile]
        rw [e1, f1, f2]
        simp [List.append_assoc]

theorem artTailD_sound {a s : List Char} {t : ArtTailRes}
    (h : artTailD a s = some t) :
    s = aOpen ++ t.w3 ++ a ++ t.w4 ++ aClose ++ t.w5 ++ vOpen ++ t.cap ++ vClose ++ t.rest ∧
      (∀ c ∈ t.w3, isWs c = true) ∧ (∀ c ∈ t.w4, isWs c = true) ∧
      (∀ c ∈ t.w5, isWs c = true) ∧ t.cap ≠ [] ∧ (∀ c ∈ t.cap, c ≠ '<') := by
  unfold artTailD at h
  cases h1 : chomp aOpen s with
  | none => rw [h1] at h; simp at h
  | some s1 =>
    rw [h1] at h
    simp only [Option.some_bind] at h
    cases h2 : chomp a (s1.dropWhile isWs) with
    | none => rw [h2] at h; simp at h
    | some s3 =>
      rw [h2] at h
      simp only [Option.some_bind] at h
      cases h3 : chomp aClose (s3.dropWhile isWs) with
      | none => rw [h3] at h; simp at h
      | some s5 =>
        rw [h3] at h
        simp only [Option.some_bind] at h
        cases h4 : chomp vOpen (s5.dropWhile isWs) with
        | none => rw [h4] at h; simp at h
        | some s7 =>
          rw [h4] at h
          simp only [Option.some_bind] at h
          by_cases hemp : (s7.takeWhile notLt).isEmpty
          · rw [if_pos hemp] at h
            simp at h
          · rw [if_neg hemp] at h
            cases h5 : chomp vClose (s7.dropWhile notLt) with
            | none => rw [h5] at h; simp at h
            | some rest =>
              rw [h5] at h
              simp only [Option.map_some'] at h
              have ht := h
              injection ht with ht
              subst ht
              refine ⟨?_, fun c hm => List.mem_takeWhile_imp hm,
                fun c hm => List.mem_takeWhile_imp hm,
                fun c hm => List.mem_takeWhile_imp hm, ?_, ?_⟩
              · have e1 := chomp_sound h1
                have e2 := chomp_sound h2
                have e3 := chomp_sound h3
                have e4 := chomp_sound h4
                have e5 := chomp_sound h5
                set wA := List.takeWhile isWs s1 with hwA
                set wB := List.takeWhile isWs s3 with hwB
                set wC := List.takeWhile isWs s5 with hwC
                set cp := List.takeWhile notLt s7 with hcp
                have f1 : s1 = wA ++ (a ++ s3) := by
                  rw [← e2, hwA, List.takeWhile_append_dropWhile]
                have f2 : s3 = wB ++ (aClose ++ s5) := by
                  rw [← e3, hwB, List.takeWhile_append_dropWhile]
                have f3 : s5 = wC ++ (vOpen ++ s7) := by
                  rw [← e4, hwC, List.takeWhile_append_dropWhile]
                have f4 : s7 = cp ++ (vClose ++ rest) := by
                  rw [← e5, hcp, List.takeWhile_append_dropWhile]
                rw [e1, f1, f2, f3, f4]
                simp [List.append_assoc]
              · simpa using hemp
              · intro c hm
                have := List.mem_takeWhile_imp hm
                simp [notLt] at this
                exact this

theorem scanTailD_sound {a s : List Char} {sk : List Char} {t : ArtTailRes}
    (h : scanTailD a s = some (sk, t)) :
    ∃ s', s = sk ++ s' ∧ artTailD a s' = some t ∧
      ∀ i < sk.length, artTailD a (s.drop i) = none := by
  induction s generalizing sk with
  | nil =>
    simp only [scanTailD] at h
    cases ha : artTailD a [] with
    | none => rw [ha] at h; simp at h
    | some t0 =>
      rw [ha] at h
      simp only [Option.map_some', Option.some.injEq, Prod.mk.injEq] at h
      obtain ⟨rfl, rfl⟩ := h
      exact ⟨[], rfl, ha, fun i hi => by simp at hi⟩
  | cons c s' ih =>
    simp only [scanTailD] at h
    cases ha : artTailD a (c :: s') with
    | some t0 =>
      rw [ha] at h
      dsimp only at h
      simp only [Option.some.injEq, Prod.mk.injEq] at h
      obtain ⟨rfl, rfl⟩ := h
      exact ⟨c :: s', rfl, ha, fun i hi => by simp at hi⟩
    | none =>
      rw [ha] at h
      dsimp only at h
      cases hs : scanTailD a s' with
      | none => rw [hs] at h; simp at h
      | some x =>
        rw [hs] at h
        obtain ⟨x1, x2⟩ := x
        simp only [Option.map_some', Option.some.injEq, Prod.mk.injEq] at h
        obtain ⟨rfl, rfl⟩ := h
        obtain ⟨s'', hdec, hart, hmin⟩ := ih hs
        refine ⟨s'', by rw [List.cons_append, hdec], hart, ?_⟩
        intro i hi
        cases i with
        | zero => simpa using ha
        | succ j =>
          simp only [List.drop_succ_cons]
          exact hmin j (by simpa using hi)

theorem scanTailD_append_none {a u R : List Char}
    (h : ∀ i, i < u.length → artTailD a (u.drop i ++ R) = none) :
    scanTailD a (u ++ R) = (scanTailD a R).map fun y => (u ++ y.1, y.2) := by
  induction u with
  | nil =>
    simp only [List.nil_append]
    cases hs : scanTailD a R with
    | none => rfl
    | some y => rfl
  | cons c u' ih =>
    have h0 : artTailD a (c :: (u' ++ R)) = none := by
      have := h 0 (by simp)
      simpa using this
    rw [List.cons_append]
    simp only [scanTailD]
    rw [h0]
    dsimp only
    rw [ih (fun i hi => by simpa using h (i + 1) (by simpa using hi))]
    cases scanTailD a R with
    | none => rfl
    | some y => rfl

theorem projMatchD_inv {g a s : List Char} {r : ProjRes} (h : projMatchD g a s = some r) :
    ∃ s2, grpParseD g s = some (r.w1, r.w2, s2) ∧
      scanTailD a s2 = some (r.skipped, ⟨r.w3, r.w4, r.w5, r.cap, r.rest⟩) := by
  unfold projMatchD at h
  cases h1 : grpParseD g s with
  | none => rw [h1] at h; simp at h
  | some x =>
    rw [h1] at h
    simp only [Option.some_bind] at h
    cases h2 : scanTailD a x.2.2 with
    | none => rw [h2] at h; simp at h
    | some y =>
      rw [h2] at h
      simp only [Option.map_some', Option.some.injEq] at h
      subst h
      exact ⟨x.2.2, rfl, h2.trans rfl⟩

theorem projMatchD_sound {g a s : List Char} {r : ProjRes} (h : projMatchD g a s = some r) :
    s = projHead g a r ++ r.cap ++ vClose ++ r.rest ∧ r.cap ≠ [] ∧
      (∀ c ∈ r.cap, c ≠ '<') := by
  obtain ⟨s2, h1, h2⟩ := projMatchD_inv h
  obtain ⟨e1, _, _⟩ := grpParseD_sound h1
  obtain ⟨s3, e2, hart, _⟩ := scanTailD_sound h2
  obtain ⟨e3, _, _, _, hcapne, hcaplt⟩ := artTailD_sound hart
  refine ⟨?_, hcapne, hcaplt⟩
  rw [e1, e2, e3]
  simp [projHead, List.append_assoc]

theorem searchProjD_sound {g a s : List Char} {pre : List Char} {r : ProjRes}
    (h : searchProjD g a s = some (pre, r)) :
    ∃ s', s = pre ++ s' ∧ projMatchD g a s' = some r ∧
      ∀ i < pre.length, projMatchD g a (s.drop i) = none := by
  induction s generalizing pre with
  | nil =>
    simp only [searchProjD] at h
    cases hm : projMatchD g a [] with
    | none => rw [hm] at h; simp at h
    | some r0 =>
      rw [hm] at h
      simp only [Option.map_some', Option.some.injEq, Prod.mk.injEq] at h
      obtain ⟨rfl, rfl⟩ := h
      exact ⟨[], rfl, hm, fun i hi => by simp at hi⟩
  | cons c s' ih =>
    simp only [searchProjD] at h
    cases hm : projMatchD g a (c :: s') with
    | some r0 =>
      rw [hm] at h
      dsimp only at h
      simp only [Option.some.injEq, Prod.mk.injEq] at h
      obtain ⟨rfl, rfl⟩ := h
      exact ⟨c :: s', rfl, hm, fun i hi => by simp at hi⟩
    | none =>
      rw [hm] at h
      dsimp only at h
      cases hs : searchProjD g a s' with
      | none => rw [hs] at h; simp at h
      | some x =>
        rw [hs] at h
        obtain ⟨x1, x2⟩ := x
        simp only [Option.map_some', Option.some.injEq, Prod.mk.injEq] at h
        obtain ⟨rfl, rfl⟩ := h
        obtain ⟨s'', hdec, hmt, hmin⟩ := ih hs
        refine ⟨s'', by rw [List.cons_append, hdec], hmt, ?_⟩
        intro i hi
        cases i with
        | zero => simpa using hm
        | succ j =>
          simp only [List.drop_succ_cons]
          exact hmin j (by simpa using hi)

theorem searchProjD_of_parts {g a : List Char} (pre s' : List Char) {r : ProjRes}
    (hnone : ∀ i, i < pre.length → projMatchD g a ((pre.drop i) ++ s') = none)
    (hm : projMatchD g a s' = some r) :
    searchProjD g a (pre ++ s') = some (pre, r) := by
  induction pre with
  | nil =>
    cases s' with
    | nil =>
      simp only [List.nil_append, searchProjD]
      rw [hm]
      rfl
    | cons c t =>
      simp only [List.nil_append, searchProjD]
      rw [hm]
  | cons c pre' ih =>
    have h0 : projMatchD g a (c :: (pre' ++ s')) = none := by
      have := hnone 0 (by simp)
      simpa using this
    simp only [List.cons_append, searchProjD, List.append_eq]
    rw [h0]
    dsimp only
    rw [ih (fun i hi => by simpa using hnone (i + 1) (by simpa using hi))]
    rfl

/-- The engine run of the artifact tail coincides with the deterministic
parse `artTailD` whenever the artifact token starts with a non-whitespace
character. -/
theorem tail_equiv (a0 : Char) (a' : List Char) (ha0 : isWs a0 = false) (s : List Char) :
    matchPieces (tailPieces (a0 :: a')) s =
      (artTailD (a0 :: a') s).map fun t =>
        ([aOpen, t.w3, a0 :: a', t.w4, aClose, t.w5, vOpen, t.cap, vClose], t.rest) := by
  have haC : aClose = '<' :: ("/artifactId>".data) := rfl
  have hvO : vOpen = '<' :: ("version>".data) := rfl
  have hvC : vClose = '<' :: ("/version>".data) := rfl
  show matchPieces (Piece.lit aOpen :: Piece.ws :: Piece.lit (a0 :: a') :: Piece.ws ::
      Piece.lit aClose :: Piece.ws :: Piece.lit vOpen :: Piece.cls notLt ::
      Piece.lit vClose :: []) s = _
  rw [matchPieces_lit]
  unfold artTailD
  cases h1 : chomp aOpen s with
  | none => rfl
  | some s1 =>
    dsimp only
    simp only [Option.some_bind]
    rw [mp_ws_lit a0 a' _ ha0 s1, matchPieces_lit]
    cases h2 : chomp (a0 :: a') (s1.dropWhile isWs) with
    | none => rfl
    | some s3 =>
      dsimp only
      simp only [Option.some_bind]
      rw [haC, mp_ws_lit '<' ("/artifactId>".data) _ (by decide) s3, matchPieces_lit]
      cases h3 : chomp ('<' :: ("/artifactId>".data)) (s3.dropWhile isWs) with
      | none => rfl
      | some s5 =>
        dsimp only
        simp only [Option.some_bind]
        rw [hvO, mp_ws_lit '<' ("version>".data) _ (by decide) s5, matchPieces_lit]
        cases h4 : chomp ('<' :: ("version>".data)) (s5.dropWhile isWs) with
        | none => rfl
        | some s7 =>
          dsimp only
          simp only [Option.some_bind]
          rw [hvC, mp_cls_lit notLt '<' ("/version>".data) _ (by decide) s7]
          by_cases hemp : (s7.takeWhile notLt).isEmpty
          · rw [if_pos hemp, if_pos hemp]
            rfl
          · rw [if_neg hemp, if_neg hemp, matchPieces_lit]
            cases h5 : chomp ('<' :: ("/version>".data)) (s7.dropWhile notLt) with
            | none => rfl
            | some rest =>
              dsimp only
              rfl

/-- The lazy-dot scan before the artifact tail coincides with the
deterministic first-success scan `scanTailD`. -/
theorem scan_equiv (a0 : Char) (a' : List Char) (ha0 : isWs a0 = false) (s : List Char) :
    matchPieces (Piece.dotLazy :: tailPieces (a0 :: a')) s =
      (scanTailD (a0 :: a') s).map fun y =>
        (y.1 :: [aOpen, y.2.w3, a0 :: a', y.2.w4, aClose, y.2.w5, vOpen, y.2.cap, vClose],
          y.2.rest) := by
  induction s with
  | nil =>
    rw [matchPieces_dotLazy, tail_equiv a0 a' ha0 []]
    simp only [scanTailD]
    cases artTailD (a0 :: a') [] with
    | none => rfl
    | some t0 => rfl
  | cons c t ih =>
    rw [matchPieces_dotLazy, tail_equiv a0 a' ha0 (c :: t)]
    simp only [scanTailD]
    cases artTailD (a0 :: a') (c :: t) with
    | some t0 => rfl
    | none =>
      rw [ih]
      cases scanTailD (a0 :: a') t with
      | none => rfl
      | some y => rfl

/-- The engine run of the full coordinate pattern coincides with the
deterministic parse `projMatchD`. -/
theorem proj_equiv (g0 a0 : Char) (g' a' : List Char) (hg0 : isWs g0 = false)
    (ha0 : isWs a0 = false) (s : List Char) :
    matchPieces (projPieces (g0 :: g') (a0 :: a')) s =
      (projMatchD (g0 :: g') (a0 :: a') s).map fun r =>
        (projSegsOf (g0 :: g') (a0 :: a') r, r.rest) := by
  have hgC : gClose = '<' :: ("/groupId>".data) := rfl
  show matchPieces (Piece.lit gOpen :: Piece.ws :: Piece.lit (g0 :: g') :: Piece.ws ::
      Piece.lit gClose :: Piece.dotLazy :: tailPieces (a0 :: a')) s = _
  rw [matchPieces_lit]
  unfold projMatchD grpParseD
  cases h1 : chomp gOpen s with
  | none => rfl
  | some s1 =>
    dsimp only
    simp only [Option.some_bind]
    rw [mp_ws_lit g0 g' _ hg0 s1, matchPieces_lit]
    cases h2 : chomp (g0 :: g') (s1.dropWhile isWs) with
    | none => rfl
    | some s3 =>
      dsimp only
      simp only [Option.some_bind]
      rw [hgC, mp_ws_lit '<' ("/groupId>".data) _ (by decide) s3, matchPieces_lit]
      cases h3 : chomp ('<' :: ("/groupId>".data)) (s3.dropWhile isWs) with
      | none => rfl
      | some s5 =>
        dsimp only
        simp only [Option.map_some', Option.some_bind]
        rw [scan_equiv a0 a' ha0 s5]
        cases hs : scanTailD (a0 :: a') s5 with
        | none => rfl
        | some y => rfl

/-- The engine's leftmost search coincides with the deterministic
leftmost search `searchProjD`. -/
theorem search_equiv (g0 a0 : Char) (g' a' : List Char) (hg0 : isWs g0 = false)
    (ha0 : isWs a0 = false) (s : List Char) :
    searchPieces (projPieces (g0 :: g') (a0 :: a')) s =
      (searchProjD (g0 :: g') (a0 :: a') s).map fun y =>
        (y.1, projSegsOf (g0 :: g') (a0 :: a') y.2, y.2.rest) := by
  induction s with
  | nil =>
    simp only [searchPieces, searchProjD]
    rw [proj_equiv g0 a0 g' a' hg0 ha0 []]
    cases projMatchD (g0 :: g') (a0 :: a') [] with
    | none => rfl
    | some r => rfl
  | cons c t ih =>
    simp only [searchPieces, searchProjD]
    rw [proj_equiv g0 a0 g' a' hg0 ha0 (c :: t)]
    cases projMatchD (g0 :: g') (a0 :: a') (c :: t) with
    | some r => rfl
    | none =>
      rw [ih]
      cases searchProjD (g0 :: g') (a0 :: a') t with
      | none => rfl
      | some y => rfl

/-- `readProjectVersionFromPom` through the deterministic search. -/
theorem read_equiv (g0 a0 : Char) (g' a' : List Char) (hg0 : isWs g0 = false)
    (ha0 : isWs a0 = false) (pom : List Char) :
    readProjectVersionFromPom pom (g0 :: g') (a0 :: a') =
      (searchProjD (g0 :: g') (a0 :: a') pom).map fun y => y.2.cap := by
  unfold readProjectVersionFromPom
  rw [search_equiv g0 a0 g' a' hg0 ha0 pom]
  cases searchProjD (g0 :: g') (a0 :: a') pom with
  | none => rfl
  | some y => rfl

/-- `updateProjectVersionInPom` through the deterministic search, for a
dollar-free new version text. -/
theorem update_equiv (g0 a0 : Char) (g' a' : List Char) (hg0 : isWs g0 = false)
    (ha0 : isWs a0 = false) (pom nv : List Char) (hnvd : '$' ∉ nv) :
    updateProjectVersionInPom pom (g0 :: g') (a0 :: a') nv =
      (searchProjD (g0 :: g') (a0 :: a') pom).map fun y =>
        y.1 ++ projHead (g0 :: g') (a0 :: a') y.2 ++ nv ++ vClose ++ y.2.rest := by
  unfold updateProjectVersionInPom
  rw [search_equiv g0 a0 g' a' hg0 ha0 pom]
  cases searchProjD (g0 :: g') (a0 :: a') pom with
  | none => rfl
  | some y =>
    simp only [Option.map_some']
    rw [getSubstitution_splice _ _ _ _ _ _ _ hnvd]
    have hflat : ((projSegsOf (g0 :: g') (a0 :: a') y.2).take 13).flatten =
        projHead (g0 :: g') (a0 :: a') y.2 := by
      simp [projSegsOf, projHead, List.append_assoc]
    have h14 : (projSegsOf (g0 :: g') (a0 :: a') y.2).getD 14 [] = vClose := rfl
    rw [hflat, h14]
    simp [List.append_assoc]

/-- Uniformity of the groupId parse in the version-capture text: on inputs
that differ only in a capture-shaped segment sitting right after a
tag-complete prefix `z`, the parse either fails for every admissible
capture or succeeds with components independent of it. -/
theorem grp_uniform (g z w : List Char) (hg : goodTok g) (hz : z = [] ∨ endsGt z) :
    (∀ X, CapText X → grpParseD g (z ++ (X ++ (vClose ++ w))) = none) ∨
    (∃ w1 w2 z1, (z1 = [] ∨ endsGt z1) ∧
      ∀ X, CapText X → grpParseD g (z ++ (X ++ (vClose ++ w))) =
        some (w1, w2, z1 ++ (X ++ (vClose ++ w)))) := by
  obtain ⟨hgne, hgmem⟩ := hg
  have hglt : '<' ∉ g := fun hm => (hgmem '<' hm).2.1 rfl
  have hgd : '>' ∉ g.dropLast :=
    fun hm => (hgmem '>' ((List.dropLast_prefix g).subset hm)).2.2 rfl
  cases hz with
  | inl hznil =>
    subst hznil
    left
    intro X hX
    obtain ⟨hXne, hXlt⟩ := hX
    cases X with
    | nil => exact absurd rfl hXne
    | cons x X' =>
      have hx : x ≠ '<' := hXlt x (List.mem_cons_self _ _)
      have hch : chomp gOpen (x :: (X' ++ (vClose ++ w))) = none := by
        rw [show gOpen = '<' :: ("groupId>".data) from rfl]
        exact chomp_cons_ne (Ne.symm hx) _ _
      simp [grpParseD, hch]
  | inr hzgt =>
    by_cases hlen : gOpen.length ≤ z.length
    · have key : ∀ Q, chomp gOpen (z ++ Q) = (chomp gOpen z).map (fun r => r ++ Q) :=
        fun Q => chomp_append_of_le hlen Q
      cases hc1 : chomp gOpen z with
      | none =>
        left
        intro X hX
        simp [grpParseD, key, hc1]
      | some z1 =>
        have hz1suf : z1 <:+ z := ⟨gOpen, (chomp_sound hc1).symm⟩
        by_cases hz1nil : z1 = []
        · subst hz1nil
          left
          intro X hX
          obtain ⟨hXne, hXlt⟩ := hX
          have hstep := capRegion_step g gClose hgne hglt
            ⟨"/groupId>".data, rfl⟩ chomp_gClose_vClose hXlt w
          unfold grpParseD
          rw [key, hc1]
          simp only [Option.map_some', Option.some_bind, List.nil_append]
          rcases hstep with hnone | ⟨s3, hsome, hclose⟩
          · rw [hnone]
            rfl
          · rw [hsome]
            simp only [Option.some_bind]
            rw [hclose]
            rfl
        · have hz1gt : endsGt z1 := endsGt_suffix hzgt hz1suf hz1nil
          have hz1d : z1.dropWhile isWs ≠ [] := dropWhile_ne_nil_of_endsGt hz1gt
          have hz1dgt : endsGt (z1.dropWhile isWs) :=
            endsGt_suffix hz1gt (List.dropWhile_suffix _) hz1d
          by_cases hleng : g.length ≤ (z1.dropWhile isWs).length
          · cases hc2 : chomp g (z1.dropWhile isWs) with
            | none =>
              left
              intro X hX
              unfold grpParseD
              rw [key, hc1]
              simp only [Option.map_some', Option.some_bind]
              rw [tdw_drop hz1d, chomp_append_of_le hleng, hc2]
              rfl
            | some z2 =>
              have hz2suf : z2 <:+ z1.dropWhile isWs := ⟨g, (chomp_sound hc2).symm⟩
              by_cases hz2nil : z2 = []
              · subst hz2nil
                left
                intro X hX
                obtain ⟨hXne, hXlt⟩ := hX
                unfold grpParseD
                rw [key, hc1]
                simp only [Option.map_some', Option.some_bind]
                rw [tdw_drop hz1d, chomp_append_of_le hleng, hc2]
                simp only [Option.map_some', Option.some_bind, List.nil_append]
                rw [tag_at_capRegion_none gClose ⟨"/groupId>".data, rfl⟩
                  chomp_gClose_vClose hXlt w]
                rfl
              · have hz2gt : endsGt z2 := endsGt_suffix hz1dgt hz2suf hz2nil
                have hz2d : z2.dropWhile isWs ≠ [] := dropWhile_ne_nil_of_endsGt hz2gt
                have hz2dgt : endsGt (z2.dropWhile isWs) :=
                  endsGt_suffix hz2gt (List.dropWhile_suffix _) hz2d
                by_cases hlenc : gClose.length ≤ (z2.dropWhile isWs).length
                · cases hc3 : chomp gClose (z2.dropWhile isWs) with
                  | none =>
                    left
                    intro X hX
                    unfold grpParseD
                    rw [key, hc1]
                    simp only [Option.map_some', Option.some_bind]
                    rw [tdw_drop hz1d, chomp_append_of_le hleng, hc2]
                    simp only [Option.map_some', Option.some_bind]
                    rw [tdw_drop hz2d, chomp_append_of_le hlenc, hc3]
                    rfl
                  | some z3 =>
                    right
                    have hz3suf : z3 <:+ z2.dropWhile isWs := ⟨gClose, (chomp_sound hc3).symm⟩
                    refine ⟨z1.takeWhile isWs, z2.takeWhile isWs, z3, ?_, ?_⟩
                    · by_cases h : z3 = []
                      · exact Or.inl h
                      · exact Or.inr (endsGt_suffix hz2dgt hz3suf h)
                    · intro X hX
                      unfold grpParseD
                      rw [key, hc1]
                      simp only [Option.map_some', Option.some_bind]
                      rw [tdw_drop hz1d, tdw_take hz1d, chomp_append_of_le hleng, hc2]
                      simp only [Option.map_some', Option.some_bind]
                      rw [tdw_drop hz2d, tdw_take hz2d, chomp_append_of_le hlenc, hc3]
                      rfl
                · left
                  intro X hX
                  unfold grpParseD
                  rw [key, hc1]
                  simp only [Option.map_some', Option.some_bind]
                  rw [tdw_drop hz1d, chomp_append_of_le hleng, hc2]
                  simp only [Option.map_some', Option.some_bind]
                  rw [tdw_drop hz2d,
                    chomp_cross_gt hz2dgt (by omega) (by decide) (X ++ (vClose ++ w))]
                  rfl
          · left
            intro X hX
            unfold grpParseD
            rw [key, hc1]
            simp only [Option.map_some', Option.some_bind]
            rw [tdw_drop hz1d, chomp_cross_gt hz1dgt (by omega) hgd (X ++ (vClose ++ w))]
            rfl
    · left
      intro X hX
      have hnone : chomp gOpen (z ++ (X ++ (vClose ++ w))) = none :=
        chomp_cross_gt hzgt (by omega) (by decide) _
      simp [grpParseD, hnone]

/-- Uniformity of the artifact-tail parse in the version-capture text:
after a tag-complete prefix `z`, the parse fails for every admissible
capture, succeeds entirely inside `z`, or succeeds with the capture
absorbing the capture-shaped segment up to the closing version tag. -/
theorem art_uniform (a z w : List Char) (ha : goodTok a) (hz : z = [] ∨ endsGt z) :
    (∀ X, CapText X → artTailD a (z ++ (X ++ (vClose ++ w))) = none) ∨
    (∃ w3 w4 w5 cp z5, (z5 = [] ∨ endsGt z5) ∧
      ∀ X, CapText X → artTailD a (z ++ (X ++ (vClose ++ w))) =
        some ⟨w3, w4, w5, cp, z5 ++ (X ++ (vClose ++ w))⟩) ∨
    (∃ w3 w4 w5 pfx, ∀ X, CapText X → artTailD a (z ++ (X ++ (vClose ++ w))) =
      some ⟨w3, w4, w5, pfx ++ X, w⟩) := by
  obtain ⟨hane, hamem⟩ := ha
  have halt : '<' ∉ a := fun hm => (hamem '<' hm).2.1 rfl
  have had : '>' ∉ a.dropLast :=
    fun hm => (hamem '>' ((List.dropLast_prefix a).subset hm)).2.2 rfl
  cases hz with
  | inl hznil =>
    subst hznil
    left
    intro X hX
    obtain ⟨hXne, hXlt⟩ := hX
    cases X with
    | nil => exact absurd rfl hXne
    | cons x X' =>
      have hx : x ≠ '<' := hXlt x (List.mem_cons_self _ _)
      have hch : chomp aOpen (x :: (X' ++ (vClose ++ w))) = none := by
        rw [show aOpen = '<' :: ("artifactId>".data) from rfl]
        exact chomp_cons_ne (Ne.symm hx) _ _
      simp [artTailD, hch]
  | inr hzgt =>
    by_cases hlen : aOpen.length ≤ z.length
    · have key : ∀ Q, chomp aOpen (z ++ Q) = (chomp aOpen z).map (fun r => r ++ Q) :=
        fun Q => chomp_append_of_le hlen Q
      cases hc1 : chomp aOpen z with
      | none =>
        left
        intro X hX
        simp [artTailD, key, hc1]
      | some z1 =>
        have hz1suf : z1 <:+ z := ⟨aOpen, (chomp_sound hc1).symm⟩
        by_cases hz1nil : z1 = []
        · subst hz1nil
          left
          intro X hX
          obtain ⟨hXne, hXlt⟩ := hX
          have hstep := capRegion_step a aClose hane halt
            ⟨"/artifactId>".data, rfl⟩ chomp_aClose_vClose hXlt w
          unfold artTailD
          rw [key, hc1]
          simp only [Option.map_some', Option.some_bind, List.nil_append]
          rcases hstep with hnone | ⟨s3, hsome, hclose⟩
          · rw [hnone]
            rfl
          · rw [hsome]
            simp only [Option.some_bind]
            rw [hclose]
            rfl
        · have hz1gt : endsGt z1 := endsGt_suffix hzgt hz1suf hz1nil
          have hz1d : z1.dropWhile isWs ≠ [] := dropWhile_ne_nil_of_endsGt hz1gt
          have hz1dgt : endsGt (z1.dropWhile isWs) :=
            endsGt_suffix hz1gt (List.dropWhile_suffix _) hz1d
          by_cases hlena : a.length ≤ (z1.dropWhile isWs).length
          · cases hc2 : chomp a (z1.dropWhile isWs) with
            | none =>
              left
              intro X hX
              unfold artTailD
              rw [key, hc1]
              simp only [Option.map_some', Option.some_bind]
              rw [tdw_drop hz1d, chomp_append_of_le hlena, hc2]
              rfl
            | some z2 =>
              have hz2suf : z2 <:+ z1.dropWhile isWs := ⟨a, (chomp_sound hc2).symm⟩
              by_cases hz2nil : z2 = []
              · subst hz2nil
                left
                intro X hX
                obtain ⟨hXne, hXlt⟩ := hX
                unfold artTailD
                rw [key, hc1]
                simp only [Option.map_some', Option.some_bind]
                rw [tdw_drop hz1d, chomp_append_of_le hlena, hc2]
                simp only [Option.map_some', Option.some_bind, List.nil_append]
                rw [tag_at_capRegion_none aClose ⟨"/artifactId>".data, rfl⟩
                  chomp_aClose_vClose hXlt w]
                rfl
              · have hz2gt : endsGt z2 := endsGt_suffix hz1dgt hz2suf hz2nil
                have hz2d : z2.dropWhile isWs ≠ [] := dropWhile_ne_nil_of_endsGt hz2gt
                have hz2dgt : endsGt (z2.dropWhile isWs) :=
                  endsGt_suffix hz2gt (List.dropWhile_suffix _) hz2d
                by_cases hlenc : aClose.length ≤ (z2.dropWhile isWs).length
                · cases hc3 : chomp aClose (z2.dropWhile isWs) with
                  | none =>
                    left
                    intro X hX
                    unfold artTailD
                    rw [key, hc1]
                    simp only [Option.map_some', Option.some_bind]
                    rw [tdw_drop hz1d, chomp_append_of_le hlena, hc2]
                    simp only [Option.map_some', Option.some_bind]
                    rw [tdw_drop hz2d, chomp_append_of_le hlenc, hc3]
                    rfl
                  | some z3 =>
                    have hz3suf : z3 <:+ z2.dropWhile isWs := ⟨aClose, (chomp_sound hc3).symm⟩
                    by_cases hz3nil : z3 = []
                    · subst hz3nil
                      left
                      intro X hX
                      obtain ⟨hXne, hXlt⟩ := hX
                      unfold artTailD
                      rw [key, hc1]
                      simp only [Option.map_some', Option.some_bind]
                      rw [tdw_drop hz1d, chomp_append_of_le hlena, hc2]
                      simp only [Option.map_some', Option.some_bind]
                      rw [tdw_drop hz2d, chomp_append_of_le hlenc, hc3]
                      simp only [Option.map_some', Option.some_bind, List.nil_append]
                      rw [tag_at_capRegion_none vOpen ⟨"version>".data, rfl⟩
                        chomp_vOpen_vClose hXlt w]
                      rfl
                    · have hz3gt : endsGt z3 := endsGt_suffix hz2dgt hz3suf hz3nil
                      have hz3d : z3.dropWhile isWs ≠ [] := dropWhile_ne_nil_of_endsGt hz3gt
                      have hz3dgt : endsGt (z3.dropWhile isWs) :=
                        endsGt_suffix hz3gt (List.dropWhile_suffix _) hz3d
                      by_cases hlenv : vOpen.length ≤ (z3.dropWhile isWs).length
                      · cases hc4 : chomp vOpen (z3.dropWhile isWs) with
                        | none =>
                          left
                          intro X hX
                          unfold artTailD
                          rw [key, hc1]
                          simp only [Option.map_some', Option.some_bind]
                          rw [tdw_drop hz1d, chomp_append_of_le hlena, hc2]
                          simp only [Option.map_some', Option.some_bind]
                          rw [tdw_drop hz2d, chomp_append_of_le hlenc, hc3]
                          simp only [Option.map_some', Option.some_bind]
                          rw [tdw_drop hz3d, chomp_append_of_le hlenv, hc4]
                          rfl
                        | some z4 =>
                          have hz4suf : z4 <:+ z3.dropWhile isWs :=
                            ⟨vOpen, (chomp_sound hc4).symm⟩
                          by_cases hlt4 : '<' ∈ z4
                          · have hz4ne : z4 ≠ [] := by
                              intro hcontr
                              rw [hcontr] at hlt4
                              simp at hlt4
                            have hz4gt : endsGt z4 := endsGt_suffix hz3dgt hz4suf hz4ne
                            have hz4dn : z4.dropWhile notLt ≠ [] := dropWhile_notLt_ne_nil hlt4
                            have hz4dgt : endsGt (z4.dropWhile notLt) :=
                              endsGt_suffix hz4gt (List.dropWhile_suffix _) hz4dn
                            by_cases hemp : (z4.takeWhile notLt).isEmpty = true
                            · left
                              intro X hX
                              unfold artTailD
                              rw [key, hc1]
                              simp only [Option.map_some', Option.some_bind]
                              rw [tdw_drop hz1d, chomp_append_of_le hlena, hc2]
                              simp only [Option.map_some', Option.some_bind]
                              rw [tdw_drop hz2d, chomp_append_of_le hlenc, hc3]
                              simp only [Option.map_some', Option.some_bind]
                              rw [tdw_drop hz3d, chomp_append_of_le hlenv, hc4]
                              simp only [Option.map_some', Option.some_bind]
                              rw [tdw_take hz4dn, if_pos hemp]
                            · by_cases hlenw : vClose.length ≤ (z4.dropWhile notLt).length
                              · cases hc5 : chomp vClose (z4.dropWhile notLt) with
                                | none =>
                                  left
                                  intro X hX
                                  unfold artTailD
                                  rw [key, hc1]
                                  simp only [Option.map_some', Option.some_bind]
                                  rw [tdw_drop hz1d, chomp_append_of_le hlena, hc2]
                                  simp only [Option.map_some', Option.some_bind]
                                  rw [tdw_drop hz2d, chomp_append_of_le hlenc, hc3]
                                  simp only [Option.map_some', Option.some_bind]
                                  rw [tdw_drop hz3d, chomp_append_of_le hlenv, hc4]
                                  simp only [Option.map_some', Option.some_bind]
                                  rw [tdw_take hz4dn, if_neg hemp, tdw_drop hz4dn,
                                    chomp_append_of_le hlenw, hc5]
                                  rfl
                                | some z5 =>
                                  right
                                  left
                                  have hz5suf : z5 <:+ z4.dropWhile notLt :=
                                    ⟨vClose, (chomp_sound hc5).symm⟩
                                  refine ⟨z1.takeWhile isWs, z2.takeWhile isWs,
                                    z3.takeWhile isWs, z4.takeWhile notLt, z5, ?_, ?_⟩
                                  · by_cases h : z5 = []
                                    · exact Or.inl h
                                    · exact Or.inr (endsGt_suffix hz4dgt hz5suf h)
                                  · intro X hX
                                    unfold artTailD
                                    rw [key, hc1]
                                    simp only [Option.map_some', Option.some_bind]
                                    rw [tdw_drop hz1d, tdw_take hz1d,
                                      chomp_append_of_le hlena, hc2]
                                    simp only [Option.map_some', Option.some_bind]
                                    rw [tdw_drop hz2d, tdw_take hz2d,
                                      chomp_append_of_le hlenc, hc3]
                                    simp only [Option.map_some', Option.some_bind]
                                    rw [tdw_drop hz3d, tdw_take hz3d,
                                      chomp_append_of_le hlenv, hc4]
                                    simp only [Option.map_some', Option.some_bind]
                                    rw [tdw_take hz4dn, if_neg hemp, tdw_drop hz4dn,
                                      chomp_append_of_le hlenw, hc5]
                                    rfl
                              · left
                                intro X hX
                                unfold artTailD
                                rw [key, hc1]
                                simp only [Option.map_some', Option.some_bind]
                                rw [tdw_drop hz1d, chomp_append_of_le hlena, hc2]
                                simp only [Option.map_some', Option.some_bind]
                                rw [tdw_drop hz2d, chomp_append_of_le hlenc, hc3]
                                simp only [Option.map_some', Option.some_bind]
                                rw [tdw_drop hz3d, chomp_append_of_le hlenv, hc4]
                                simp only [Option.map_some', Option.some_bind]
                                rw [tdw_take hz4dn, if_neg hemp, tdw_drop hz4dn,
                                  chomp_cross_gt hz4dgt (by omega) (by decide)
                                    (X ++ (vClose ++ w))]
                                rfl
                          · right
                            right
                            refine ⟨z1.takeWhile isWs, z2.takeWhile isWs,
                              z3.takeWhile isWs, z4, ?_⟩
                            intro X hX
                            obtain ⟨hXne, hXlt⟩ := hX
                            have hall : ∀ c ∈ z4 ++ X, notLt c = true := by
                              intro c hm
                              rcases List.mem_append.mp hm with hm | hm
                              · have : c ≠ '<' := fun hcontr => hlt4 (hcontr ▸ hm)
                                simp [notLt, this]
                              · have : c ≠ '<' := hXlt c hm
                                simp [notLt, this]
                            have hassoc : z4 ++ (X ++ (vClose ++ w)) =
                                (z4 ++ X) ++ ('<' :: ("/version>".data ++ w)) := by
                              rw [← vClose_cons]
                              simp [List.append_assoc]
                            have hstop := takeWhile_all_stop hall
                              (by decide : notLt '<' = false) ("/version>".data ++ w)
                            have hne4X : ¬((z4 ++ X).isEmpty = true) := by
                              intro hcontr
                              rw [List.isEmpty_iff] at hcontr
                              exact hXne (List.append_eq_nil.mp hcontr).2
                            unfold artTailD
                            rw [key, hc1]
                            simp only [Option.map_some', Option.some_bind]
                            rw [tdw_drop hz1d, tdw_take hz1d, chomp_append_of_le hlena, hc2]
                            simp only [Option.map_some', Option.some_bind]
                            rw [tdw_drop hz2d, tdw_take hz2d, chomp_append_of_le hlenc, hc3]
                            simp only [Option.map_some', Option.some_bind]
                            rw [tdw_drop hz3d, tdw_take hz3d, chomp_append_of_le hlenv, hc4]
                            simp only [Option.map_some', Option.some_bind]
                            rw [hassoc, hstop.1, hstop.2, if_neg hne4X, ← vClose_cons,
                              chomp_append]
                            rfl
                      · left
                        intro X hX
                        unfold artTailD
                        rw [key, hc1]
                        simp only [Option.map_some', Option.some_bind]
                        rw [tdw_drop hz1d, chomp_append_of_le hlena, hc2]
                        simp only [Option.map_some', Option.some_bind]
                        rw [tdw_drop hz2d, chomp_append_of_le hlenc, hc3]
                        simp only [Option.map_some', Option.some_bind]
                        rw [tdw_drop hz3d,
                          chomp_cross_gt hz3dgt (by omega) (by decide) (X ++ (vClose ++ w))]
                        rfl
                · left
                  intro X hX
                  unfold artTailD
                  rw [key, hc1]
                  simp only [Option.map_some', Option.some_bind]
                  rw [tdw_drop hz1d, chomp_append_of_le hlena, hc2]
                  simp only [Option.map_some', Option.some_bind]
                  rw [tdw_drop hz2d,
                    chomp_cross_gt hz2dgt (by omega) (by decide) (X ++ (vClose ++ w))]
                  rfl
          · left
            intro X hX
            unfold artTailD
            rw [key, hc1]
            simp only [Option.map_some', Option.some_bind]
            rw [tdw_drop hz1d, chomp_cross_gt hz1dgt (by omega) had (X ++ (vClose ++ w))]
            rfl
    · left
      intro X hX
      have hnone : chomp aOpen (z ++ (X ++ (vClose ++ w))) = none :=
        chomp_cross_gt hzgt (by omega) (by decide) _
      simp [artTailD, hnone]

/-- Uniformity of the lazy scan in the version-capture text: the scan
either finds the artifact tail inside `z` (entirely within `z`, or with
the capture absorbing the capture-shaped segment), or it skips over the
whole of `z`, the capture segment and the closing version tag and
continues in `w`. -/
theorem scan_uniform (a z w : List Char) (ha : goodTok a) (hz : z = [] ∨ endsGt z) :
    (∃ sk w3 w4 w5 cp z5, (z5 = [] ∨ endsGt z5) ∧
      ∀ X, CapText X → scanTailD a (z ++ (X ++ (vClose ++ w))) =
        some (sk, ⟨w3, w4, w5, cp, z5 ++ (X ++ (vClose ++ w))⟩)) ∨
    (∃ sk w3 w4 w5 pfx, ∀ X, CapText X → scanTailD a (z ++ (X ++ (vClose ++ w))) =
      some (sk, ⟨w3, w4, w5, pfx ++ X, w⟩)) ∨
    (∀ X, CapText X → scanTailD a (z ++ (X ++ (vClose ++ w))) =
      (scanTailD a w).map fun y => (z ++ (X ++ (vClose ++ y.1)), y.2)) := by
  induction z with
  | nil =>
    right
    right
    intro X hX
    obtain ⟨hXne, hXlt⟩ := hX
    have hXfail : ∀ i, i < X.length → artTailD a (X.drop i ++ (vClose ++ w)) = none := by
      intro i hi
      cases hXd : X.drop i with
      | nil =>
        exact absurd hXd (by
          intro hcontr
          have := List.drop_eq_nil_iff.mp hcontr
          omega)
      | cons c t =>
        have hc : c ≠ '<' := by
          apply hXlt
          have : c ∈ X.drop i := by
            rw [hXd]
            exact List.mem_cons_self _ _
          exact List.drop_subset _ _ this
        rw [List.cons_append]
        exact art_head_ne hc a _
    have hVfail : ∀ i, i < vClose.length → artTailD a (vClose.drop i ++ w) = none := by
      intro i hi
      have h10 : i < 10 := hi
      interval_cases i <;> rfl
    simp only [List.nil_append]
    rw [scanTailD_append_none hXfail, scanTailD_append_none hVfail]
    cases scanTailD a w with
    | none => rfl
    | some y => simp [List.append_assoc]
  | cons c z' ih =>
    have hzgt : endsGt (c :: z') := by
      rcases hz with h | h
      · exact absurd h (by simp)
      · exact h
    have hz' : z' = [] ∨ endsGt z' := by
      by_cases hn : z' = []
      · exact Or.inl hn
      · obtain ⟨y, hy⟩ := hzgt
        have hy2 : [c] ++ z' = y ++ ['>'] := by simpa using hy
        exact Or.inr (endsGt_of_append_eq hy2 hn)
    rcases art_uniform a (c :: z') w ha (Or.inr hzgt) with
      haf | ⟨w3, w4, w5, cp, z5, hinv, hval⟩ | ⟨w3, w4, w5, pfx, hval⟩
    · rcases ih hz' with ⟨sk, w3, w4, w5, cp, z5, hinv, hval⟩ |
        ⟨sk, w3, w4, w5, pfx, hval⟩ | hval
      · left
        refine ⟨c :: sk, w3, w4, w5, cp, z5, hinv, ?_⟩
        intro X hX
        have haf' := haf X hX
        simp only [List.cons_append] at haf' ⊢
        simp only [scanTailD]
        rw [haf']
        dsimp only
        rw [hval X hX]
        rfl
      · right
        left
        refine ⟨c :: sk, w3, w4, w5, pfx, ?_⟩
        intro X hX
        have haf' := haf X hX
        simp only [List.cons_append] at haf' ⊢
        simp only [scanTailD]
        rw [haf']
        dsimp only
        rw [hval X hX]
        rfl
      · right
        right
        intro X hX
        have haf' := haf X hX
        simp only [List.cons_append] at haf' ⊢
        simp only [scanTailD]
        rw [haf']
        dsimp only
        rw [hval X hX]
        cases scanTailD a w with
        | none => rfl
        | some y => rfl
    · left
      refine ⟨[], w3, w4, w5, cp, z5, hinv, ?_⟩
      intro X hX
      have hv := hval X hX
      simp only [List.cons_append] at hv ⊢
      simp only [scanTailD]
      rw [hv]
    · right
      left
      refine ⟨[], w3, w4, w5, pfx, ?_⟩
      intro X hX
      have hv := hval X hX
      simp only [List.cons_append] at hv ⊢
      simp only [scanTailD]
      rw [hv]

/-- Failure of the whole coordinate parse after a tag-complete prefix is
uniform in the capture-shaped segment. -/
theorem projMatchD_none_uniform {g a : List Char} (z w : List Char) (hg : goodTok g)
    (ha : goodTok a) (hz : z = [] ∨ endsGt z) {X X' : List Char} (hX : CapText X)
    (hX' : CapText X')
    (h : projMatchD g a (z ++ (X ++ (vClose ++ w))) = none) :
    projMatchD g a (z ++ (X' ++ (vClose ++ w))) = none := by
  rcases grp_uniform g z w hg hz with hgf | ⟨w1, w2, z1, hz1, hval⟩
  · unfold projMatchD
    rw [hgf X' hX']
    rfl
  · unfold projMatchD at h ⊢
    rw [hval X hX] at h
    rw [hval X' hX']
    simp only [Option.some_bind] at h ⊢
    rcases scan_uniform a z1 w ha hz1 with ⟨sk, w3, w4, w5, cp, z5, hinv, hs⟩ |
      ⟨sk, w3, w4, w5, pfx, hs⟩ | hs
    · rw [hs X hX] at h
      simp at h
    · rw [hs X hX] at h
      simp at h
    · rw [hs X hX] at h
      rw [hs X' hX']
      cases hw : scanTailD a w with
      | none => rfl
      | some y =>
        rw [hw] at h
        simp at h

/-- Replacing the captured version text by any admissible text preserves
the whole coordinate parse, with the capture field replaced. -/
theorem projMatchD_success_transfer {g a s' : List Char} {r : ProjRes}
    (hg : goodTok g) (ha : goodTok a) {nv : List Char} (hnv : CapText nv)
    (h : projMatchD g a s' = some r) :
    projMatchD g a (projHead g a r ++ (nv ++ (vClose ++ r.rest))) =
      some ⟨r.w1, r.w2, r.skipped, r.w3, r.w4, r.w5, nv, r.rest⟩ := by
  obtain ⟨hdec, hcapne, hcaplt⟩ := projMatchD_sound h
  have hcap : CapText r.cap := ⟨hcapne, hcaplt⟩
  obtain ⟨s2, hgrp, hscan⟩ := projMatchD_inv h
  have hHgt : endsGt (projHead g a r) := by
    unfold projHead
    repeat apply endsGt_append
    exact ⟨"<version".data, rfl⟩
  have hdec' : s' = projHead g a r ++ (r.cap ++ (vClose ++ r.rest)) := by
    rw [hdec]
    simp [List.append_assoc]
  rcases grp_uniform g (projHead g a r) r.rest hg (Or.inr hHgt) with
    hgf | ⟨w1, w2, z1, hz1, hval⟩
  · exfalso
    have := hgf r.cap hcap
    rw [← hdec'] at this
    rw [this] at hgrp
    exact Option.noConfusion hgrp
  · have hvcap := hval r.cap hcap
    rw [← hdec'] at hvcap
    rw [hgrp] at hvcap
    simp only [Option.some.injEq, Prod.mk.injEq] at hvcap
    obtain ⟨hw1, hw2, hs2⟩ := hvcap
    subst hs2
    rcases scan_uniform a z1 r.rest ha hz1 with
      ⟨sk, w3, w4, w5, cp, z5, hinv, hs⟩ | ⟨sk, w3, w4, w5, pfx, hs⟩ | hs
    · exfalso
      have hknown := hs r.cap hcap
      rw [hscan] at hknown
      simp only [Option.some.injEq, Prod.mk.injEq, ArtTailRes.mk.injEq] at hknown
      have hlenc := congrArg List.length hknown.2.2.2.2.2
      simp only [List.length_append] at hlenc
      have : vClose.length = 10 := rfl
      omega
    · have hknown := hs r.cap hcap
      rw [hscan] at hknown
      simp only [Option.some.injEq, Prod.mk.injEq, ArtTailRes.mk.injEq] at hknown
      have hsk := hknown.1
      have hw3 := hknown.2.1
      have hw4 := hknown.2.2.1
      have hw5 := hknown.2.2.2.1
      have hcp := hknown.2.2.2.2.1
      have hpfx : pfx = [] := by
        have := congrArg List.length hcp
        simp only [List.length_append] at this
        have h0 : pfx.length = 0 := by omega
        exact List.eq_nil_of_length_eq_zero h0
      subst hpfx
      unfold projMatchD
      rw [hval nv hnv]
      simp only [Option.some_bind]
      rw [hs nv hnv]
      simp only [Option.map_some', List.nil_append]
      rw [hsk, hw3, hw4, hw5, ← hw1, ← hw2]
    · exfalso
      have hknown := hs r.cap hcap
      rw [hscan] at hknown
      cases hw : scanTailD a r.rest with
      | none =>
        rw [hw] at hknown
        simp at hknown
      | some y =>
        obtain ⟨y1, y2⟩ := y
        rw [hw] at hknown
        simp only [Option.map_some', Option.some.injEq, Prod.mk.injEq] at hknown
        have hy2 : y2 = ⟨r.w3, r.w4, r.w5, r.cap, r.rest⟩ := hknown.2.symm
        obtain ⟨s'', hwdec, hart, _⟩ := scanTailD_sound hw
        obtain ⟨hadec, _, _, _, _, _⟩ := artTailD_sound hart
        have hl1 := congrArg List.length hwdec
        have hl2 := congrArg List.length hadec
        have hl3 : y2.rest = r.rest := by rw [hy2]
        have hl4 := congrArg List.length hl3
        simp only [List.length_append] at hl1 hl2
        have hvO : vOpen.length = 9 := rfl
        have hvC : vClose.length = 10 := rfl
        have haO : aOpen.length = 12 := rfl
        have haC : aClose.length = 13 := rfl
        omega

/-- Claim C1 (amended): for every manifest in which the coordinate pattern
is present (the read succeeds), well-formed coordinates (nonempty, free of
whitespace and angle brackets) and a well-formed replacement version text
(nonempty, free of whitespace, angle brackets and dollars), updating the
project version and reading it back yields the new version, and the
byte-diff against the original is confined to the captured version text.
(As stated the claim fails for degenerate version strings: an empty new
version makes the rewritten element unreadable, see the counterexample;
a dollar in the new version would instead be consumed by the ECMAScript
substitution of the replacement template.) -/
theorem claim_c1_round_trip (pom g a nv v0 : List Char)
    (hg : goodTok g) (ha : goodTok a) (hnv : goodTok nv) (hnvd : '$' ∉ nv)
    (hread : readProjectVersionFromPom pom g a = some v0) :
    ∃ out pre mid rest,
      updateProjectVersionInPom pom g a nv = some out ∧
      readProjectVersionFromPom out g a = some nv ∧
      pom = pre ++ mid ++ v0 ++ vClose ++ rest ∧
      out = pre ++ mid ++ nv ++ vClose ++ rest := by
  cases g with
  | nil => exact absurd rfl hg.1
  | cons g0 g' =>
  cases a with
  | nil => exact absurd rfl ha.1
  | cons a0 a' =>
  have hg0 : isWs g0 = false := (hg.2 g0 (List.mem_cons_self _ _)).1
  have ha0 : isWs a0 = false := (ha.2 a0 (List.mem_cons_self _ _)).1
  rw [read_equiv g0 a0 g' a' hg0 ha0 pom] at hread
  cases hsrch : searchProjD (g0 :: g') (a0 :: a') pom with
  | none =>
    rw [hsrch] at hread
    simp at hread
  | some y =>
    obtain ⟨pre, r⟩ := y
    rw [hsrch] at hread
    simp only [Option.map_some', Option.some.injEq] at hread
    obtain ⟨s', hdec0, hm, hmin⟩ := searchProjD_sound hsrch
    obtain ⟨hdec1, hcapne, hcaplt⟩ := projMatchD_sound hm
    have hnvC : CapText nv := ⟨hnv.1, fun c hm' => (hnv.2 c hm').2.1⟩
    have hcapC : CapText r.cap := ⟨hcapne, hcaplt⟩
    have hupd := update_equiv g0 a0 g' a' hg0 ha0 pom nv hnvd
    rw [hsrch] at hupd
    simp only [Option.map_some'] at hupd
    have hsucc := projMatchD_success_transfer hg ha hnvC hm
    have hHgt : endsGt (projHead (g0 :: g') (a0 :: a') r) := by
      unfold projHead
      repeat apply endsGt_append
      exact ⟨"<version".data, rfl⟩
    have hnone : ∀ i, i < pre.length →
        projMatchD (g0 :: g') (a0 :: a')
          ((pre.drop i) ++ (projHead (g0 :: g') (a0 :: a') r ++ (nv ++ (vClose ++ r.rest)))) =
          none := by
      intro i hi
      have horig := hmin i hi
      have hdrop : pom.drop i = (pre.drop i) ++ s' := by
        rw [hdec0, List.drop_append_eq_append_drop, Nat.sub_eq_zero_of_le (le_of_lt hi),
          List.drop_zero]
      rw [hdrop] at horig
      have hs' : s' = projHead (g0 :: g') (a0 :: a') r ++ (r.cap ++ (vClose ++ r.rest)) := by
        rw [hdec1]
        simp [List.append_assoc]
      rw [hs'] at horig
      have hassoc : (pre.drop i) ++
          (projHead (g0 :: g') (a0 :: a') r ++ (r.cap ++ (vClose ++ r.rest))) =
          ((pre.drop i) ++ projHead (g0 :: g') (a0 :: a') r) ++ (r.cap ++ (vClose ++ r.rest)) := by
        simp [List.append_assoc]
      rw [hassoc] at horig
      have hz : ((pre.drop i) ++ projHead (g0 :: g') (a0 :: a') r) = [] ∨
          endsGt ((pre.drop i) ++ projHead (g0 :: g') (a0 :: a') r) :=
        Or.inr (endsGt_append _ hHgt)
      have hres := projMatchD_none_uniform _ _ hg ha hz hcapC hnvC horig
      rw [show (pre.drop i) ++
          (projHead (g0 :: g') (a0 :: a') r ++ (nv ++ (vClose ++ r.rest))) =
          ((pre.drop i) ++ projHead (g0 :: g') (a0 :: a') r) ++ (nv ++ (vClose ++ r.rest)) from
        by simp [List.append_assoc]]
      exact hres
    have hsearch2 := searchProjD_of_parts pre
      (projHead (g0 :: g') (a0 :: a') r ++ (nv ++ (vClose ++ r.rest))) hnone hsucc
    have hread2 := read_equiv g0 a0 g' a' hg0 ha0
      (pre ++ (projHead (g0 :: g') (a0 :: a') r ++ (nv ++ (vClose ++ r.rest))))
    rw [hsearch2] at hread2
    simp only [Option.map_some'] at hread2
    refine ⟨pre ++ projHead (g0 :: g') (a0 :: a') r ++ nv ++ vClose ++ r.rest, pre,
      projHead (g0 :: g') (a0 :: a') r, r.rest, hupd, ?_, ?_, rfl⟩
    · simpa [List.append_assoc] using hread2
    · rw [hdec0, hdec1, ← hread]
      simp [List.append_assoc]

/-- Claim C1 (counterexample): with an empty new version the claimed
round trip fails — the update succeeds, but the rewritten element
`<version></version>` no longer matches the `[^<]+` capture, so the read
back returns null rather than the (empty) new version. -/
theorem claim_c1_counterexample :
    ∃ out,
      updateProjectVersionInPom
        ("<groupId>g</groupId><artifactId>a</artifactId><version>1.0</version>".data)
        ("g".data) ("a".data) [] = some out ∧
      readProjectVersionFromPom out ("g".data) ("a".data) = none :=
  ⟨_, rfl, rfl⟩

/-- Claim C1 (witness): the amended round-trip theorem at a concrete
manifest, coordinates `com.pagopa:svc`, and new version `2.0.0`. -/
theorem claim_c1_witness :
    goodTok ("com.pagopa".data) ∧ goodTok ("svc".data) ∧ goodTok ("2.0.0".data) ∧
    '$' ∉ ("2.0.0".data) ∧
    readProjectVersionFromPom
      ("<groupId>com.pagopa</groupId><artifactId>svc</artifactId><version>1.0.0</version>".data)
      ("com.pagopa".data) ("svc".data) = some ("1.0.0".data) ∧
    ∃ out pre mid rest,
      updateProjectVersionInPom
        ("<groupId>com.pagopa</groupId><artifactId>svc</artifactId><version>1.0.0</version>".data)
        ("com.pagopa".data) ("svc".data) ("2.0.0".data) = some out ∧
      readProjectVersionFromPom out ("com.pagopa".data) ("svc".data) = some ("2.0.0".data) ∧
      ("<groupId>com.pagopa</groupId><artifactId>svc</artifactId><version>1.0.0</version>".data)
        = pre ++ mid ++ ("1.0.0".data) ++ vClose ++ rest ∧
      out = pre ++ mid ++ ("2.0.0".data) ++ vClose ++ rest :=
  ⟨⟨by decide, by decide⟩, ⟨by decide, by decide⟩, ⟨by decide, by decide⟩, by decide, rfl,
    claim_c1_round_trip _ _ _ _ _ ⟨by decide, by decide⟩ ⟨by decide, by decide⟩
      ⟨by decide, by decide⟩ (by decide) rfl⟩
